import Mathlib

/-
Verification of the Schema-Aware Query Resolution Pipeline of the
data-analysis-dashboard backend.

The JavaScript sources are embedded shallowly over `List Char`:
  - src/utils/parser.js      : type inference (isValidDate, isCurrency, inferDataType)
  - src/utils/openai.js      : fixSqlQuery, QUERY_PATTERNS, validateAndAdaptSchema,
                               detectQueryType, noise stripping in generateSQL,
                               formatQueryResults
  - the query controller     : validateSqlQuery, safeExecuteQuery, table selection
                               in processQuery

Modelling conventions:
  - strings are ASCII-scoped lists of characters; String.prototype.length is the
    character count; toLowerCase is the ASCII table lowChar;
  - JavaScript numbers are modelled as exact rationals (JSNum); double rounding
    and overflow to Infinity are outside the model, and every theorem whose truth
    could depend on them carries explicit magnitude bounds in its hypotheses;
  - new Date(string) parsing is host-defined, so it is a parameter
    (an oracle String → Bool) of the type-inference embedding; the deterministic
    short-circuits of isValidDate are embedded from the source;
  - percentage thresholds (0.7, 0.9) are compared exactly (10*a ≥ 7*n etc.);
  - regular expressions of the source are embedded as explicit scanners with the
    leftmost-match, global-continuation semantics of RegExp.replace.
-/

/- Character classes used by the regexes of the source (ASCII scope). -/

def jsWsChar (c : Char) : Bool :=
  c = ' ' || c = '\t' || c = '\n' || c = '\r' || c = '\x0b' || c = '\x0c'

def wordChar (c : Char) : Bool :=
  c.isAlphanum || c = '_'

def lowChar : Char → Char
  | 'A' => 'a' | 'B' => 'b' | 'C' => 'c' | 'D' => 'd' | 'E' => 'e' | 'F' => 'f'
  | 'G' => 'g' | 'H' => 'h' | 'I' => 'i' | 'J' => 'j' | 'K' => 'k' | 'L' => 'l'
  | 'M' => 'm' | 'N' => 'n' | 'O' => 'o' | 'P' => 'p' | 'Q' => 'q' | 'R' => 'r'
  | 'S' => 's' | 'T' => 't' | 'U' => 'u' | 'V' => 'v' | 'W' => 'w' | 'X' => 'x'
  | 'Y' => 'y' | 'Z' => 'z'
  | c => c

def lowerL (l : List Char) : List Char := l.map lowChar

theorem lowChar_wordChar (c : Char) : wordChar (lowChar c) = wordChar c := by
  unfold lowChar
  split <;> first | rfl | decide

theorem lowChar_of_nonword (c : Char) (h : wordChar c = false) : lowChar c = c := by
  unfold lowChar
  split <;> first | rfl | exact absurd h (by decide)

/- Plain and case-insensitive prefix tests, substring containment
   (the model of String.prototype.includes / startsWith). -/

def prefEq : List Char → List Char → Bool
  | [], _ => true
  | _ :: _, [] => false
  | a :: v, c :: t => a = c && prefEq v t

def containsSub : List Char → List Char → Bool
  | [], pat => prefEq pat []
  | hay@(_ :: t), pat => prefEq pat hay || containsSub t pat

theorem prefEq_iff (pat l : List Char) : prefEq pat l = true ↔ ∃ r, l = pat ++ r := by
  induction pat generalizing l with
  | nil => simpa [prefEq] using ⟨l, rfl⟩
  | cons a v ih =>
    cases l with
    | nil =>
      simp [prefEq]
    | cons c t =>
      simp only [prefEq, Bool.and_eq_true, decide_eq_true_eq, ih]
      constructor
      · rintro ⟨rfl, r, rfl⟩; exact ⟨r, rfl⟩
      · rintro ⟨r, h⟩
        cases h
        exact ⟨rfl, r, rfl⟩

theorem containsSub_iff (hay pat : List Char) :
    containsSub hay pat = true ↔ ∃ a b, hay = a ++ pat ++ b := by
  induction hay with
  | nil =>
    simp only [containsSub, prefEq_iff]
    constructor
    · rintro ⟨r, h⟩
      exact ⟨[], r, by simpa using h⟩
    · rintro ⟨a, b, h⟩
      exact ⟨b, by
        have : a = [] ∧ pat ++ b = [] := by
          constructor
          · cases a with
            | nil => rfl
            | cons x xs => simp at h
          · cases a with
            | nil => simpa using h.symm
            | cons x xs => simp at h
        simpa using this.2.symm⟩
  | cons c t ih =>
    simp only [containsSub, Bool.or_eq_true, prefEq_iff, ih]
    constructor
    · rintro (⟨r, h⟩ | ⟨a, b, h⟩)
      · exact ⟨[], r, by simpa using h⟩
      · exact ⟨c :: a, b, by simp [h]⟩
    · rintro ⟨a, b, h⟩
      cases a with
      | nil => exact Or.inl ⟨b, by simpa using h⟩
      | cons x xs =>
        right
        refine ⟨xs, b, ?_⟩
        simpa using congrArg List.tail h

/- Drops P s t : t is s with some characters satisfying P deleted.
   This is the shape of every pre-validation cleanup of the execution path
   (underscore fix, trim, trailing-semicolon strip), and the reason keyword
   occurrences survive cleanup. -/

inductive Drops (P : Char → Prop) : List Char → List Char → Prop
  | nil : Drops P [] []
  | keep (c : Char) {s t : List Char} : Drops P s t → Drops P (c :: s) (c :: t)
  | del (c : Char) {s t : List Char} : P c → Drops P s t → Drops P (c :: s) t

theorem Drops.refl (P : Char → Prop) (s : List Char) : Drops P s s := by
  induction s with
  | nil => exact .nil
  | cons c t ih => exact .keep c ih

theorem Drops.mono {P Q : Char → Prop} (h : ∀ c, P c → Q c) {s t : List Char}
    (d : Drops P s t) : Drops Q s t := by
  induction d with
  | nil => exact .nil
  | keep c _ ih => exact .keep c ih
  | del c hc _ ih => exact .del c (h c hc) ih

theorem Drops.append {P : Char → Prop} {a b c d : List Char}
    (h1 : Drops P a b) (h2 : Drops P c d) : Drops P (a ++ c) (b ++ d) := by
  induction h1 with
  | nil => simpa using h2
  | keep x _ ih => exact .keep x ih
  | del x hx _ ih => exact .del x hx ih

theorem Drops.trans {P : Char → Prop} {s t u : List Char}
    (h1 : Drops P s t) (h2 : Drops P t u) : Drops P s u := by
  induction h1 generalizing u with
  | nil =>
    cases h2
    exact .nil
  | keep c _ ih =>
    cases h2 with
    | keep _ h => exact .keep c (ih h)
    | del _ hc h => exact .del c hc (ih h)
  | del c hc _ ih => exact .del c hc (ih h2)

theorem Drops.map {P : Char → Prop} (f : Char → Char) (hf : ∀ c, P c → P (f c))
    {s t : List Char} (d : Drops P s t) : Drops P (s.map f) (t.map f) := by
  induction d with
  | nil => exact .nil
  | keep c _ ih => exact .keep (f c) ih
  | del c hc _ ih => exact .del (f c) (hf c hc) ih

theorem Drops.dropWhile {P : Char → Prop} (p : Char → Bool)
    (hp : ∀ c, p c = true → P c) (l : List Char) : Drops P l (l.dropWhile p) := by
  induction l with
  | nil => exact .nil
  | cons c t ih =>
    by_cases hc : p c = true
    · simpa [List.dropWhile, hc] using Drops.del c (hp c hc) ih
    · simp only [List.dropWhile, hc]
      exact .keep c (Drops.refl P t)

theorem Drops.reverse {P : Char → Prop} {s t : List Char}
    (d : Drops P s t) : Drops P s.reverse t.reverse := by
  induction d with
  | nil => exact .nil
  | keep c _ ih => simpa using Drops.append ih (Drops.refl P [c])
  | del c hc _ ih =>
    have h1 : Drops P [c] [] := .del c hc .nil
    simpa using Drops.append ih h1

/- Occurrences of a deletion-free word survive the deletions. -/

theorem Drops.clean_front {P : Char → Prop} {s t k b : List Char}
    (d : Drops P s t) (hs : s = k ++ b) (hk : ∀ c ∈ k, ¬ P c) :
    ∃ y, t = k ++ y ∧ Drops P b y := by
  induction d generalizing k b with
  | nil =>
    have hk0 : k = [] := by
      cases k with
      | nil => rfl
      | cons x xs => simp at hs
    subst hk0
    have hb0 : b = [] := by simpa using hs.symm
    subst hb0
    exact ⟨[], by simp, .nil⟩
  | @keep c s0 t0 d0 ih =>
    cases k with
    | nil =>
      exact ⟨c :: t0, rfl, by simpa [hs] using Drops.keep c d0⟩
    | cons k0 krest =>
      have hc : c = k0 := by simpa using congrArg List.head? hs
      have hs0 : s0 = krest ++ b := by simpa using congrArg List.tail hs
      obtain ⟨y, hy, hb⟩ := ih hs0 (fun x hx => hk x (List.mem_cons_of_mem _ hx))
      exact ⟨y, by simp [hc, hy], hb⟩
  | @del c s0 t0 hc d0 ih =>
    cases k with
    | nil =>
      exact ⟨t0, rfl, by
        have : Drops P s0 t0 := d0
        simpa [hs] using Drops.del c hc this⟩
    | cons k0 krest =>
      have hck : c = k0 := by simpa using congrArg List.head? hs
      exact absurd (hck ▸ hc) (hk k0 (List.mem_cons_self _ _))

theorem Drops.infix_preserved {P : Char → Prop} {s t : List Char}
    (d : Drops P s t) (a k b : List Char) (hs : s = a ++ k ++ b)
    (hk : ∀ c ∈ k, ¬ P c) : ∃ x y, t = x ++ k ++ y := by
  induction d generalizing a with
  | nil =>
    have ha : a = [] := by
      cases a with
      | nil => rfl
      | cons x xs => simp at hs
    subst ha
    have hk0 : k = [] := by
      cases k with
      | nil => rfl
      | cons x xs => simp at hs
    exact ⟨[], [], by simp [hk0]⟩
  | @keep c s0 t0 d0 ih =>
    cases a with
    | nil =>
      cases k with
      | nil => exact ⟨[], c :: t0, by simp⟩
      | cons k0 krest =>
        have hc : c = k0 := by simpa using congrArg List.head? hs
        have hs0 : s0 = krest ++ b := by simpa using congrArg List.tail hs
        obtain ⟨y, hy, _⟩ := d0.clean_front hs0 (fun x hx => hk x (List.mem_cons_of_mem _ hx))
        exact ⟨[], y, by simp [hc, hy]⟩
    | cons a0 arest =>
      have hc : c = a0 := by simpa using congrArg List.head? hs
      have hs0 : s0 = arest ++ k ++ b := by simpa using congrArg List.tail hs
      obtain ⟨x, y, hxy⟩ := ih arest hs0
      exact ⟨c :: x, y, by simp [hxy]⟩
  | @del c s0 t0 hc d0 ih =>
    cases a with
    | nil =>
      cases k with
      | nil => exact ⟨[], t0, by simp⟩
      | cons k0 krest =>
        have hck : c = k0 := by simpa using congrArg List.head? hs
        exact absurd (hck ▸ hc) (hk k0 (List.mem_cons_self _ _))
    | cons a0 arest =>
      have hs0 : s0 = arest ++ k ++ b := by simpa using congrArg List.tail hs
      exact ih arest hs0

/- JavaScript String.prototype.trim and the trailing-semicolon strip of
   safeExecuteQuery. -/

def jsTrimL (l : List Char) : List Char :=
  ((l.dropWhile jsWsChar).reverse.dropWhile jsWsChar).reverse

def dropTrailingSemisL (l : List Char) : List Char :=
  (l.reverse.dropWhile (fun c => c = ';')).reverse

theorem jsTrimL_drops (l : List Char) : Drops (fun c => jsWsChar c = true) l (jsTrimL l) := by
  have h1 : Drops (fun c => jsWsChar c = true) l (l.dropWhile jsWsChar) :=
    Drops.dropWhile jsWsChar (fun _ h => h) l
  have h2 : Drops (fun c => jsWsChar c = true) (l.dropWhile jsWsChar).reverse
      ((l.dropWhile jsWsChar).reverse.dropWhile jsWsChar) :=
    Drops.dropWhile jsWsChar (fun _ h => h) _
  have h3 := h2.reverse
  rw [List.reverse_reverse] at h3
  exact h1.trans h3

theorem dropTrailingSemisL_drops (l : List Char) :
    Drops (fun c => c = ';') l (dropTrailingSemisL l) := by
  have h2 : Drops (fun c => c = ';') l.reverse
      (l.reverse.dropWhile (fun c => c = ';')) :=
    Drops.dropWhile _ (fun c h => by simpa using h) _
  have h3 := h2.reverse
  rw [List.reverse_reverse] at h3
  exact h3

/- SQL safety validation of the query controller (validateSqlQuery), and the
   pure pre-execution pipeline of safeExecuteQuery: underscore fix of quoted
   identifiers, trim, trailing-semicolon strip, then validation guarding
   pool.query. -/

structure ValidationResult where
  valid : Bool
  message : String
deriving DecidableEq

def dangerousKeywords : List String :=
  ["insert", "update", "delete", "drop", "alter", "create",
   "truncate", "exec", "execute", "union", "--"]

def hasDisallowedKeyword (sql : List Char) : Bool :=
  dangerousKeywords.any (fun k => containsSub (lowerL sql) k.data)

def validateSqlQueryCtrl (sql : List Char) : ValidationResult :=
  if !(prefEq "select".data (lowerL (jsTrimL sql))) then
    ⟨false, "Only SELECT queries are allowed"⟩
  else if hasDisallowedKeyword sql then
    ⟨false, "Query contains disallowed SQL keywords"⟩
  else if containsSub sql "_FROM\"".data || containsSub sql "\"FROM".data then
    ⟨false, "Query contains syntax error with FROM clause"⟩
  else if !(containsSub (lowerL sql) "from".data) then
    ⟨false, "Query is missing FROM clause"⟩
  else ⟨true, ""⟩

/- Replacement of /"\_(.*?)"/g by the quoted content: the dot of the regex
   does not cross line terminators, and the lazy group stops at the first
   closing quote. -/

def findCloseQuote : List Char → Option Nat
  | [] => none
  | c :: t =>
    if c = '"' then some 0
    else if c = '\n' || c = '\r' then none
    else (findCloseQuote t).map (· + 1)

def uFixA : Nat → List Char → List Char
  | _ + 1, [] => []
  | k + 1, _ :: t => uFixA k t
  | 0, [] => []
  | 0, c :: t =>
    if c = '"' && t.head? = some '_' then
      match findCloseQuote t.tail with
      | some i => '"' :: (t.tail.take i ++ '"' :: uFixA (i + 2) t)
      | none => c :: uFixA 0 t
    else c :: uFixA 0 t

def prepareExec (sql : List Char) : List Char :=
  dropTrailingSemisL (jsTrimL (if containsSub sql ['"', '_'] then uFixA 0 sql else sql))

def safeExecPrepare (sql : List Char) : Except String (List Char) :=
  let s2 := prepareExec sql
  if (validateSqlQueryCtrl s2).valid then .ok s2
  else .error ("Invalid SQL query: " ++ (validateSqlQueryCtrl s2).message)

theorem uFixA_skip (k : Nat) (t : List Char) : uFixA k t = uFixA 0 (t.drop k) := by
  induction k generalizing t with
  | zero => simp
  | succ k ih =>
    cases t with
    | nil => simp [uFixA]
    | cons c t => simpa [uFixA] using ih t

theorem findCloseQuote_decomp (l : List Char) (i : Nat) (h : findCloseQuote l = some i) :
    l = l.take i ++ '"' :: l.drop (i + 1) := by
  induction l generalizing i with
  | nil => simp [findCloseQuote] at h
  | cons c t ih =>
    simp only [findCloseQuote] at h
    by_cases hc : c = '"'
    · rw [if_pos hc] at h
      cases h
      simp [hc]
    · rw [if_neg hc] at h
      by_cases hn : (c = '\n' || c = '\r') = true
      · rw [if_pos hn] at h
        cases h
      · rw [if_neg hn] at h
        cases hft : findCloseQuote t with
        | none =>
          rw [hft] at h
          cases h
        | some j =>
          rw [hft] at h
          simp only [Option.map_some'] at h
          cases h
          have hdec := ih j hft
          calc c :: t = c :: (t.take j ++ '"' :: t.drop (j + 1)) := by rw [← hdec]
          _ = (c :: t).take (j + 1) ++ '"' :: (c :: t).drop (j + 1 + 1) := by simp

theorem uFixA_drops (N : Nat) : ∀ l : List Char, l.length ≤ N →
    Drops (fun c => c = '_') l (uFixA 0 l) := by
  induction N with
  | zero =>
    intro l hl
    have : l = [] := by
      cases l with
      | nil => rfl
      | cons c t => simp at hl
    subst this
    exact .nil
  | succ N ih =>
    intro l hl
    cases l with
    | nil => exact .nil
    | cons c t =>
      by_cases hcond : (c = '"' && t.head? = some '_') = true
      · simp only [Bool.and_eq_true, decide_eq_true_eq] at hcond
        obtain ⟨rfl, hh⟩ := hcond
        cases t with
        | nil => simp at hh
        | cons u t2 =>
          have hu : u = '_' := by simpa using hh
          subst hu
          cases hcq : findCloseQuote t2 with
          | none =>
            have hout : uFixA 0 ('"' :: '_' :: t2) = '"' :: uFixA 0 ('_' :: t2) := by
              simp [uFixA, hcq]
            rw [hout]
            have ht : ('_' :: t2).length ≤ N := by simpa using hl
            exact .keep '"' (ih _ ht)
          | some i =>
            have hout : uFixA 0 ('"' :: '_' :: t2) =
                '"' :: (t2.take i ++ '"' :: uFixA (i + 2) ('_' :: t2)) := by
              simp [uFixA, hcq]
            rw [hout, uFixA_skip]
            have hdrop : ('_' :: t2).drop (i + 2) = t2.drop (i + 1) := by simp
            rw [hdrop]
            have hdec := findCloseQuote_decomp t2 i hcq
            have hlen : (t2.drop (i + 1)).length ≤ N := by
              have h1 : (t2.drop (i + 1)).length ≤ t2.length := by
                simpa using List.length_drop_le (i + 1) t2
              have h2 : t2.length + 2 ≤ N + 1 := by simpa using hl
              omega
            have htail : Drops (fun c => c = '_') (t2.take i ++ '"' :: t2.drop (i + 1))
                (t2.take i ++ '"' :: uFixA 0 (t2.drop (i + 1))) :=
              Drops.append (Drops.refl _ _) (Drops.keep '"' (ih _ hlen))
            have hsrc : ('"' :: '_' :: t2) =
                '"' :: '_' :: (t2.take i ++ '"' :: t2.drop (i + 1)) := by
              rw [← hdec]
            rw [hsrc]
            exact .keep '"' (.del '_' rfl htail)
      · have hout : uFixA 0 (c :: t) = c :: uFixA 0 t := by
          simp only [uFixA]
          rw [if_neg (by simpa using hcond)]
        rw [hout]
        exact .keep c (ih t (by simpa using Nat.le_of_succ_le_succ hl))

/- Keyword occurrences survive the pre-execution cleanup: the cleanup only
   deletes underscores, whitespace and semicolons, and no disallowed keyword
   contains such a character. -/

def cleanupChar (c : Char) : Prop := c = '_' ∨ jsWsChar c = true ∨ c = ';'

theorem ws_not_word (c : Char) (h : jsWsChar c = true) : wordChar c = false := by
  simp only [jsWsChar, Bool.or_eq_true, decide_eq_true_eq] at h
  rcases h with ((((rfl | rfl) | rfl) | rfl) | rfl) | rfl <;> decide

theorem cleanupChar_lowChar (c : Char) (h : cleanupChar c) : cleanupChar (lowChar c) := by
  rcases h with rfl | hws | rfl
  · exact Or.inl rfl
  · have : lowChar c = c := lowChar_of_nonword c (ws_not_word c hws)
    rw [this]
    exact Or.inr (Or.inl hws)
  · exact Or.inr (Or.inr rfl)

theorem prepareExec_drops (q : List Char) : Drops cleanupChar q (prepareExec q) := by
  have d1 : Drops cleanupChar q (if containsSub q ['"', '_'] then uFixA 0 q else q) := by
    split
    · exact (uFixA_drops q.length q le_rfl).mono (fun c h => Or.inl h)
    · exact Drops.refl _ q
  have d2 := (jsTrimL_drops (if containsSub q ['"', '_'] then uFixA 0 q else q)).mono
    (fun c h => (Or.inr (Or.inl h) : cleanupChar c))
  have d3 := (dropTrailingSemisL_drops
    (jsTrimL (if containsSub q ['"', '_'] then uFixA 0 q else q))).mono
    (fun c h => (Or.inr (Or.inr h) : cleanupChar c))
  exact (d1.trans d2).trans d3

theorem keyword_chars_clean (k : String) (hk : k ∈ dangerousKeywords) :
    ∀ c ∈ k.data, ¬ cleanupChar c := by
  have hdec : ∀ k ∈ dangerousKeywords, ∀ c ∈ k.data,
      ¬ (c = '_' ∨ jsWsChar c = true ∨ c = ';') := by decide
  exact hdec k hk

theorem prepareExec_keeps_keywords (q : List Char) (h : hasDisallowedKeyword q = true) :
    hasDisallowedKeyword (prepareExec q) = true := by
  simp only [hasDisallowedKeyword, List.any_eq_true] at h ⊢
  obtain ⟨k, hkmem, hkc⟩ := h
  refine ⟨k, hkmem, ?_⟩
  obtain ⟨a, b, hab⟩ := (containsSub_iff _ _).mp hkc
  have d : Drops cleanupChar (lowerL q) (lowerL (prepareExec q)) :=
    (prepareExec_drops q).map lowChar cleanupChar_lowChar
  obtain ⟨x, y, hxy⟩ := d.infix_preserved a k.data b hab (keyword_chars_clean k hkmem)
  exact (containsSub_iff _ _).mpr ⟨x, y, hxy⟩

theorem validate_rejects_keywords (s : List Char) (h : hasDisallowedKeyword s = true) :
    (validateSqlQueryCtrl s).valid = false := by
  unfold validateSqlQueryCtrl
  by_cases h1 : (!(prefEq "select".data (lowerL (jsTrimL s)))) = true
  · simp [h1]
  · simp [h1, h]

/-- C1: a raw SQL string containing any disallowed keyword (insert, update,
delete, drop, alter, create, truncate, exec, execute, union, or the comment
token) is rejected with an error by the pre-execution validation of
safeExecuteQuery instead of being handed to the query executor; conversely a
string that the pipeline does hand to the executor contains no such keyword. -/
theorem c1_disallowed_keywords_never_executed :
    (∀ q s, safeExecPrepare q = .ok s → hasDisallowedKeyword s = false) ∧
    (∀ q, hasDisallowedKeyword q = true → ∃ e, safeExecPrepare q = .error e) := by
  constructor
  · intro q s hok
    unfold safeExecPrepare at hok
    by_cases hv : (validateSqlQueryCtrl (prepareExec q)).valid = true
    · simp only [hv, if_true] at hok
      cases hok
      by_cases hkw : hasDisallowedKeyword (prepareExec q) = true
      · exact absurd hv (by simp [validate_rejects_keywords _ hkw])
      · simpa using hkw
    · simp [hv] at hok
  · intro q hq
    have h2 := prepareExec_keeps_keywords q hq
    have hv := validate_rejects_keywords _ h2
    refine ⟨"Invalid SQL query: " ++ (validateSqlQueryCtrl (prepareExec q)).message, ?_⟩
    unfold safeExecPrepare
    simp [hv]

theorem c1_disallowed_keywords_never_executed_witness :
    ∃ e, safeExecPrepare ("SELECT * FROM t; DROP TABLE users".data) = .error e :=
  c1_disallowed_keywords_never_executed.2 _ (by decide)

/-- C9: the pre-execution safety check is a plain case-insensitive substring
test, so every SQL string whose lowercase form contains a disallowed keyword
anywhere is rejected, even when the keyword only occurs inside a quoted
identifier of a read-only SELECT (witness: a SELECT over a created_at
column). -/
theorem c9_substring_check_rejects_quoted_identifiers (q : List Char)
    (h : hasDisallowedKeyword q = true) : (validateSqlQueryCtrl q).valid = false :=
  validate_rejects_keywords q h

theorem c9_substring_check_rejects_quoted_identifiers_witness :
    (validateSqlQueryCtrl ("SELECT \"created_at\" FROM \"events\"".data)).valid = false :=
  c9_substring_check_rejects_quoted_identifiers _ (by decide)

/- Noise stripping applied by generateSQL to the raw language-model output:
   trim, removal of code-fence markers (leftmost alternative first), removal of
   think-tags (lazy up to the first closing tag), trim, then keeping only the
   text before the first semicolon (split on ";" and take element 0). -/

def stripFences : Nat → List Char → List Char
  | _ + 1, [] => []
  | k + 1, _ :: t => stripFences k t
  | 0, [] => []
  | 0, c :: t =>
    if prefEq "```sql".data (c :: t) then stripFences 5 t
    else if prefEq "```".data (c :: t) then stripFences 2 t
    else c :: stripFences 0 t

def findSubIdx (pat : List Char) : List Char → Option Nat
  | [] => if pat = [] then some 0 else none
  | hay@(_ :: t) => if prefEq pat hay then some 0 else (findSubIdx pat t).map (· + 1)

def stripThink : Nat → List Char → List Char
  | _ + 1, [] => []
  | k + 1, _ :: t => stripThink k t
  | 0, [] => []
  | 0, c :: t =>
    if prefEq "<think>".data (c :: t) then
      match findSubIdx "</think>".data (t.drop 6) with
      | some i => stripThink (14 + i) t
      | none => c :: stripThink 0 t
    else c :: stripThink 0 t

def preStrip (s : List Char) : List Char :=
  jsTrimL (stripThink 0 (stripFences 0 (jsTrimL s)))

def stripNoise (s : List Char) : List Char :=
  (preStrip s).takeWhile (fun c => !(c = ';'))

theorem takeWhile_append_stop (p : Char → Bool) (x y : List Char) (a : Char)
    (hx : ∀ c ∈ x, p c = true) (ha : p a = false) :
    (x ++ a :: y).takeWhile p = x := by
  induction x with
  | nil => simp [List.takeWhile_cons, ha]
  | cons c t ih =>
    have hc : p c = true := hx c (List.mem_cons_self _ _)
    have ih2 := ih (fun d hd => hx d (List.mem_cons_of_mem _ hd))
    simp [List.takeWhile_cons, hc, ih2]

theorem mem_takeWhile_sat (p : Char → Bool) (l : List Char) :
    ∀ c ∈ l.takeWhile p, p c = true := by
  induction l with
  | nil => simp
  | cons c t ih =>
    by_cases hc : p c = true
    · simp only [List.takeWhile_cons, hc, if_true]
      intro d hd
      rcases List.mem_cons.mp hd with rfl | hmem
      · exact hc
      · exact ih d hmem
    · simp [List.takeWhile_cons, hc]

/-- C3: when the cleaned language-model output consists of several
semicolon-delimited statements, the noise-stripping stage of generateSQL keeps
exactly the text before the first semicolon, and the retained statement (which
is then validated on its own) contains no semicolon. -/
theorem c3_first_statement_kept (s x y : List Char)
    (h : preStrip s = x ++ ';' :: y) (hx : ∀ c ∈ x, c ≠ ';') :
    stripNoise s = x ∧ ∀ c ∈ stripNoise s, c ≠ ';' := by
  have hstrip : stripNoise s = x := by
    unfold stripNoise
    rw [h]
    exact takeWhile_append_stop _ x y ';'
      (fun c hc => by simpa using hx c hc) (by simp)
  refine ⟨hstrip, ?_⟩
  intro c hc
  have := mem_takeWhile_sat (fun c => !(c = ';')) (preStrip s) c hc
  simpa using this

theorem c3_first_statement_kept_witness :
    stripNoise ("SELECT category FROM sales; DROP TABLE sales".data) =
      "SELECT category FROM sales".data :=
  (c3_first_statement_kept "SELECT category FROM sales; DROP TABLE sales".data
    "SELECT category FROM sales".data " DROP TABLE sales".data
    (by decide) (by decide)).1

/- JavaScript numbers as exact values: nan, signed Infinity, or a rational.
   Double rounding and overflow are outside the model; theorems that could be
   affected carry explicit digit-count bounds. -/

inductive JSNum where
  | nan : JSNum
  | inf : Bool → JSNum
  | fin : ℚ → JSNum
deriving DecidableEq

def isDigitC (c : Char) : Bool := 48 ≤ c.toNat && c.toNat ≤ 57

def digitVal (c : Char) : Nat := c.toNat - 48

def digitsToNat : List Char → Nat
  | [] => 0
  | c :: t => digitVal c * 10 ^ t.length + digitsToNat t

def isHexDigitC (c : Char) : Bool :=
  isDigitC c || (97 ≤ c.toNat && c.toNat ≤ 102) || (65 ≤ c.toNat && c.toNat ≤ 70)

def hexVal (c : Char) : Nat :=
  if isDigitC c then c.toNat - 48
  else if 97 ≤ c.toNat && c.toNat ≤ 102 then c.toNat - 97 + 10
  else c.toNat - 65 + 10

def isOctDigitC (c : Char) : Bool := 48 ≤ c.toNat && c.toNat ≤ 55
def isBinDigitC (c : Char) : Bool := c = '0' || c = '1'

def digitsToNatBase (base : Nat) (f : Char → Nat) : List Char → Nat
  | [] => 0
  | c :: t => f c * base ^ t.length + digitsToNatBase base f t

def parseExpTail : List Char → Option ℤ
  | [] => some 0
  | c :: t =>
    if c = 'e' || c = 'E' then
      match t with
      | '+' :: d => if !d.isEmpty && d.all isDigitC then some ((digitsToNat d : ℤ)) else none
      | '-' :: d => if !d.isEmpty && d.all isDigitC then some (-(digitsToNat d : ℤ)) else none
      | d => if !d.isEmpty && d.all isDigitC then some ((digitsToNat d : ℤ)) else none
    else none

def pow10Q (n : Nat) : ℚ := ((10 ^ n : ℕ) : ℚ)

def zpow10Q (e : ℤ) : ℚ := if 0 ≤ e then pow10Q e.toNat else 1 / pow10Q (-e).toNat

def parseUnsignedDec (l : List Char) : Option ℚ :=
  let ip := l.takeWhile isDigitC
  let r1 := l.dropWhile isDigitC
  match r1 with
  | '.' :: r2 =>
    let fp := r2.takeWhile isDigitC
    let r3 := r2.dropWhile isDigitC
    if ip.isEmpty && fp.isEmpty then none
    else
      match parseExpTail r3 with
      | some e =>
        some (((digitsToNat ip : ℚ) + (digitsToNat fp : ℚ) / pow10Q fp.length) * zpow10Q e)
      | none => none
  | _ =>
    if ip.isEmpty then none
    else
      match parseExpTail r1 with
      | some e => some ((digitsToNat ip : ℚ) * zpow10Q e)
      | none => none

def parseSigned (neg : Bool) (l : List Char) : JSNum :=
  if l = "Infinity".data then .inf neg
  else
    match parseUnsignedDec l with
    | some q => .fin (if neg then -q else q)
    | none => .nan

def parseRadix (base : Nat) (f : Char → Nat) (valid : Char → Bool) (l : List Char) : JSNum :=
  if !l.isEmpty && l.all valid then .fin ((digitsToNatBase base f l : ℚ)) else .nan

def jsStrToNum (l : List Char) : JSNum :=
  let t := jsTrimL l
  if t.isEmpty then .fin 0
  else
    match t with
    | '+' :: r => parseSigned false r
    | '-' :: r => parseSigned true r
    | _ =>
      if prefEq ['0', 'x'] t || prefEq ['0', 'X'] t then
        parseRadix 16 hexVal isHexDigitC (t.drop 2)
      else if prefEq ['0', 'o'] t || prefEq ['0', 'O'] t then
        parseRadix 8 digitVal isOctDigitC (t.drop 2)
      else if prefEq ['0', 'b'] t || prefEq ['0', 'B'] t then
        parseRadix 2 digitVal isBinDigitC (t.drop 2)
      else parseSigned false t

def jsIsNaNb : JSNum → Bool
  | .nan => true
  | _ => false

def jsNumIsIntegerB : JSNum → Bool
  | .fin q => q.den = 1
  | _ => false

/- Type Inference Engine (src/utils/parser.js).  Values are the strings the
   CSV parser delivers (header mode, no dynamic typing); the Excel path can
   deliver numeric cells and is outside this model.  The date parse of the
   host (new Date on a string that has survived all short-circuits) is the
   oracle parameter. -/

def moneyHints : List String := ["price", "cost", "total", "amount", "sum", "qty", "quantity"]
def dateHints : List String := ["date", "time", "day", "month", "year"]

def moneyHintName (lname : List Char) : Bool := moneyHints.any (fun h => containsSub lname h.data)
def dateHintName (lname : List Char) : Bool := dateHints.any (fun h => containsSub lname h.data)

def stripSign (l : List Char) : List Char :=
  match l with
  | '-' :: r => r
  | r => r

def matchUDec (l : List Char) : Bool :=
  let ip := l.takeWhile isDigitC
  let r := l.dropWhile isDigitC
  !ip.isEmpty && (r.isEmpty || (r.head? = some '.' && !r.tail.isEmpty && r.tail.all isDigitC))

def matchPlainNumRe (l : List Char) : Bool :=
  matchUDec (stripSign l)

def matchGroups : List Char → Bool
  | [] => true
  | ',' :: a :: b :: c :: r => isDigitC a && isDigitC b && isDigitC c && matchGroups r
  | '.' :: r => !r.isEmpty && r.all isDigitC
  | _ => false

def matchCurrencyCore (l : List Char) : Bool :=
  !(l.takeWhile isDigitC).isEmpty && matchGroups (l.dropWhile isDigitC)

def matchCurrencyRe (l : List Char) : Bool :=
  matchCurrencyCore (stripSign l)

def isCurrencyS (s : String) : Bool :=
  containsSub s.data ['$'] || matchCurrencyRe s.data ||
    (matchPlainNumRe s.data && containsSub s.data ['.'])

def isValidDateS (oracle : String → Bool) (s : String) : Bool :=
  if s.data.length < 6 then false
  else if !jsIsNaNb (jsStrToNum s.data) && s.data.length < 4 then false
  else if containsSub s.data ['$']
      || (matchPlainNumRe s.data && !containsSub s.data ['/']) then false
  else oracle s

def filterValid (values : List String) : List String := values.filter (fun v => v ≠ "")

def inferNumericOrText (vv : List String) : String :=
  let possibleNumberCount := (vv.filter (fun v => !jsIsNaNb (jsStrToNum v.data))).length
  if possibleNumberCount = vv.length then
    (let integerCount := (vv.filter (fun v => jsNumIsIntegerB (jsStrToNum v.data))).length
     if integerCount = vv.length then "INTEGER" else "NUMERIC")
  else "TEXT"

def inferAfterMoney (oracle : String → Bool) (vv : List String) (lname : List Char) : String :=
  let possibleDateCount := (vv.filter (fun v => isValidDateS oracle v)).length
  if possibleDateCount = vv.length ∧ 0 < possibleDateCount then
    (if dateHintName lname = true then "DATE"
     else if 9 * vv.length < 10 * possibleDateCount then "DATE"
     else inferNumericOrText vv)
  else inferNumericOrText vv

def inferDataType (oracle : String → Bool) (values : List String) (columnName : String) :
    String :=
  let validValues := filterValid values
  if validValues.length = 0 then "TEXT"
  else
    let lowerColName := lowerL columnName.data
    let currencyCount := (validValues.filter
      (fun v => isCurrencyS v || !jsIsNaNb (jsStrToNum v.data))).length
    if moneyHintName lowerColName = true ∧ 0 < currencyCount ∧
        7 * validValues.length ≤ 10 * currencyCount then "NUMERIC"
    else inferAfterMoney oracle validValues lowerColName

def jsDateNever : String → Bool := fun _ => false

/- Support lemmas about digit strings and the number parser, used to settle
   the type-inference claims. -/

theorem takeWhile_all (p : Char → Bool) (l : List Char) (h : ∀ c ∈ l, p c = true) :
    l.takeWhile p = l := by
  induction l with
  | nil => rfl
  | cons c t ih =>
    have hc := h c (List.mem_cons_self _ _)
    simp [List.takeWhile_cons, hc, ih (fun d hd => h d (List.mem_cons_of_mem _ hd))]

theorem dropWhile_nil_of_all (p : Char → Bool) (l : List Char) (h : ∀ c ∈ l, p c = true) :
    l.dropWhile p = [] := by
  induction l with
  | nil => rfl
  | cons c t ih =>
    have hc := h c (List.mem_cons_self _ _)
    simp [List.dropWhile_cons, hc, ih (fun d hd => h d (List.mem_cons_of_mem _ hd))]

theorem dropWhile_append_stop (p : Char → Bool) (x y : List Char) (a : Char)
    (hx : ∀ c ∈ x, p c = true) (ha : p a = false) :
    (x ++ a :: y).dropWhile p = a :: y := by
  induction x with
  | nil => simp [List.dropWhile_cons, ha]
  | cons c t ih =>
    have hc : p c = true := hx c (List.mem_cons_self _ _)
    simp only [List.cons_append, List.dropWhile_cons, hc, if_true]
    exact ih (fun d hd => hx d (List.mem_cons_of_mem _ hd))

theorem dropWhile_eq_self_of_all_false (p : Char → Bool) (l : List Char)
    (h : ∀ c ∈ l, p c = false) : l.dropWhile p = l := by
  cases l with
  | nil => rfl
  | cons c t => simp [List.dropWhile_cons, h c (List.mem_cons_self _ _)]

theorem jsTrimL_eq_self (l : List Char) (h : ∀ c ∈ l, jsWsChar c = false) :
    jsTrimL l = l := by
  unfold jsTrimL
  rw [dropWhile_eq_self_of_all_false _ _ h]
  rw [dropWhile_eq_self_of_all_false _ _ (fun c hc => h c (List.mem_reverse.mp hc))]
  exact List.reverse_reverse l

theorem digit_not_ws (c : Char) (h : isDigitC c = true) : jsWsChar c = false := by
  cases hw : jsWsChar c
  · rfl
  · simp only [jsWsChar, Bool.or_eq_true, decide_eq_true_eq] at hw
    rcases hw with ((((rfl | rfl) | rfl) | rfl) | rfl) | rfl <;> simp [isDigitC] at h

theorem filter_length_lt {α : Type} (l : List α) (p : α → Bool) (x : α)
    (hx : x ∈ l) (hp : p x = false) : (l.filter p).length < l.length := by
  induction l with
  | nil => cases hx
  | cons c t ih =>
    rcases List.mem_cons.mp hx with rfl | hmem
    · rw [List.filter_cons, hp, if_neg (by simp)]
      have := List.length_filter_le p t
      simp only [List.length_cons]
      omega
    · rw [List.filter_cons]
      by_cases hc : p c = true
      · rw [hc, if_pos rfl]
        simp only [List.length_cons]
        have := ih hmem
        omega
      · rw [Bool.not_eq_true] at hc
        rw [hc, if_neg (by simp)]
        simp only [List.length_cons]
        have := ih hmem
        omega

theorem digitVal_lt (c : Char) (h : isDigitC c = true) : digitVal c < 10 := by
  simp only [isDigitC, Bool.and_eq_true, decide_eq_true_eq] at h
  simp only [digitVal]
  omega

theorem digitVal_pos (c : Char) (h : isDigitC c = true) (hne : c ≠ '0') :
    1 ≤ digitVal c := by
  simp only [isDigitC, Bool.and_eq_true, decide_eq_true_eq] at h
  have hn : c.toNat ≠ 48 := by
    intro hc
    apply hne
    have := Char.ofNat_toNat c
    rw [hc] at this
    exact this.symm ▸ rfl
  simp only [digitVal]
  omega

theorem digitsToNat_lt (l : List Char) (h : ∀ c ∈ l, isDigitC c = true) :
    digitsToNat l < 10 ^ l.length := by
  induction l with
  | nil => simp [digitsToNat]
  | cons c t ih =>
    have h1 := digitVal_lt c (h c (List.mem_cons_self _ _))
    have h2 := ih (fun d hd => h d (List.mem_cons_of_mem _ hd))
    simp only [digitsToNat, List.length_cons, pow_succ]
    nlinarith

theorem digitsToNat_pos (l : List Char) (h : ∀ c ∈ l, isDigitC c = true)
    (c0 : Char) (hc0 : c0 ∈ l) (hne : c0 ≠ '0') : 0 < digitsToNat l := by
  induction l with
  | nil => cases hc0
  | cons c t ih =>
    simp only [digitsToNat]
    rcases List.mem_cons.mp hc0 with rfl | hmem
    · have h1 := digitVal_pos c0 (h c0 (List.mem_cons_self _ _)) hne
      have : 0 < 10 ^ t.length := Nat.pos_pow_of_pos _ (by omega)
      nlinarith
    · have := ih (fun d hd => h d (List.mem_cons_of_mem _ hd)) hmem
      omega

theorem prefEq_two_false (b : Char) (l : List Char)
    (hl : ∀ c ∈ l, isDigitC c = true ∨ c = '.')
    (hb1 : isDigitC b = false) (hb2 : b ≠ '.') : prefEq ['0', b] l = false := by
  cases l with
  | nil => rfl
  | cons c t =>
    cases t with
    | nil => simp [prefEq]
    | cons d t2 =>
      have hd := hl d (List.mem_cons_of_mem _ (List.mem_cons_self _ _))
      have hbd : b ≠ d := by
        intro hbd
        subst hbd
        rcases hd with h1 | h2
        · rw [h1] at hb1; cases hb1
        · exact hb2 h2
      simp [prefEq, hbd]

theorem digits_dot_ne_infinity (l : List Char)
    (hl : ∀ c ∈ l, isDigitC c = true ∨ c = '.') : l ≠ "Infinity".data := by
  intro heq
  have hI : 'I' ∈ l := by rw [heq]; decide
  have := hl 'I' hI
  rcases this with h1 | h2
  · exact absurd h1 (by decide)
  · exact absurd h2 (by decide)

theorem parseUnsignedDec_digits (l : List Char) (hne : l ≠ [])
    (hd : ∀ c ∈ l, isDigitC c = true) :
    parseUnsignedDec l = some ((digitsToNat l : ℚ)) := by
  unfold parseUnsignedDec
  rw [takeWhile_all _ _ hd, dropWhile_nil_of_all _ _ hd]
  simp only [parseExpTail]
  rw [if_neg (by simpa using hne)]
  simp [zpow10Q, pow10Q]

theorem parseUnsignedDec_frac (a f : List Char) (ha : a ≠ []) (hf : f ≠ [])
    (hda : ∀ c ∈ a, isDigitC c = true) (hdf : ∀ c ∈ f, isDigitC c = true) :
    parseUnsignedDec (a ++ '.' :: f) =
      some ((digitsToNat a : ℚ) + (digitsToNat f : ℚ) / pow10Q f.length) := by
  have ha2 : a.isEmpty = false := by simpa using ha
  unfold parseUnsignedDec
  rw [takeWhile_append_stop _ _ _ _ hda (by decide),
    dropWhile_append_stop _ _ _ _ hda (by decide)]
  simp [takeWhile_all _ _ hdf, dropWhile_nil_of_all _ _ hdf, parseExpTail, ha2,
    zpow10Q, pow10Q]

/- Shapes of value strings used in the type-inference claims: integer strings,
   plain decimal strings with a fractional part, and a nonzero fractional
   digit. -/

def intStrOk (l : List Char) : Bool :=
  !(stripSign l).isEmpty && (stripSign l).all isDigitC

def decFracCore (r : List Char) : Bool :=
  !(r.takeWhile isDigitC).isEmpty && (r.dropWhile isDigitC).head? = some '.' &&
    !(r.dropWhile isDigitC).tail.isEmpty && (r.dropWhile isDigitC).tail.all isDigitC

def decFracShape (l : List Char) : Bool := decFracCore (stripSign l)

def fracHasNonzero (l : List Char) : Bool :=
  (((stripSign l).dropWhile isDigitC).tail).any (fun c => !(c = '0'))

theorem filter_nil_of_all_false {α : Type} (l : List α) (p : α → Bool)
    (h : ∀ v ∈ l, p v = false) : l.filter p = [] := by
  induction l with
  | nil => rfl
  | cons c t ih =>
    rw [List.filter_cons, h c (List.mem_cons_self _ _), if_neg (by simp)]
    exact ih (fun v hv => h v (List.mem_cons_of_mem _ hv))

theorem jsStrToNum_digitdot (c0 : Char) (t0 : List Char)
    (hcs : ∀ c ∈ c0 :: t0, isDigitC c = true ∨ c = '.') (hc0 : isDigitC c0 = true) :
    jsStrToNum (c0 :: t0) = parseSigned false (c0 :: t0) := by
  have hws : ∀ c ∈ c0 :: t0, jsWsChar c = false := by
    intro c hc
    rcases hcs c hc with hd | rfl
    · exact digit_not_ws c hd
    · decide
  unfold jsStrToNum
  rw [jsTrimL_eq_self _ hws]
  simp only [List.isEmpty_cons, Bool.false_eq_true, if_false]
  split
  · rename_i r heq
    have : c0 = '+' := by simpa using congrArg List.head? heq
    rw [this] at hc0
    exact absurd hc0 (by decide)
  · rename_i r heq
    have : c0 = '-' := by simpa using congrArg List.head? heq
    rw [this] at hc0
    exact absurd hc0 (by decide)
  · rw [prefEq_two_false 'x' _ hcs (by decide) (by decide),
      prefEq_two_false 'X' _ hcs (by decide) (by decide),
      prefEq_two_false 'o' _ hcs (by decide) (by decide),
      prefEq_two_false 'O' _ hcs (by decide) (by decide),
      prefEq_two_false 'b' _ hcs (by decide) (by decide),
      prefEq_two_false 'B' _ hcs (by decide) (by decide)]
    simp

theorem jsStrToNum_neg (r : List Char) (hcs : ∀ c ∈ r, isDigitC c = true ∨ c = '.') :
    jsStrToNum ('-' :: r) = parseSigned true r := by
  have hws : ∀ c ∈ '-' :: r, jsWsChar c = false := by
    intro c hc
    rcases List.mem_cons.mp hc with rfl | hmem
    · decide
    · rcases hcs c hmem with hd | rfl
      · exact digit_not_ws c hd
      · decide
  unfold jsStrToNum
  rw [jsTrimL_eq_self _ hws]
  simp

theorem parseSigned_val (neg : Bool) (l : List Char) (hni : l ≠ "Infinity".data) :
    parseSigned neg l =
      (match parseUnsignedDec l with
       | some q => JSNum.fin (if neg then -q else q)
       | none => JSNum.nan) := by
  unfold parseSigned
  rw [if_neg hni]

theorem jsStrToNum_int (l : List Char) (h : intStrOk l = true) :
    ∃ z : ℤ, jsStrToNum l = .fin ((z : ℚ)) := by
  simp only [intStrOk, Bool.and_eq_true, Bool.not_eq_true', List.isEmpty_eq_false,
    List.all_eq_true, decide_eq_true_eq] at h
  obtain ⟨hne, hall⟩ := h
  cases l with
  | nil => simp [stripSign] at hne
  | cons c t =>
    by_cases hcm : c = '-'
    · subst hcm
      have hne2 : t ≠ [] := by simpa [stripSign] using hne
      have hall2 : ∀ c ∈ t, isDigitC c = true := by simpa [stripSign] using hall
      rw [jsStrToNum_neg t (fun c hc => Or.inl (hall2 c hc)),
        parseSigned_val true t (digits_dot_ne_infinity t (fun c hc => Or.inl (hall2 c hc))),
        parseUnsignedDec_digits t hne2 hall2]
      refine ⟨-(digitsToNat t : ℤ), ?_⟩
      simp
    · have hstrip : stripSign (c :: t) = c :: t := by
        unfold stripSign
        split
        · rename_i r heq
          have : c = '-' := by simpa using congrArg List.head? heq
          exact absurd this hcm
        · rfl
      rw [hstrip] at hne hall
      have hall2 : ∀ x ∈ c :: t, isDigitC x = true := by simpa using hall
      have hc0 : isDigitC c = true := hall2 c (List.mem_cons_self _ _)
      rw [jsStrToNum_digitdot c t (fun x hx => Or.inl (hall2 x hx)) hc0,
        parseSigned_val false _ (digits_dot_ne_infinity _ (fun x hx => Or.inl (hall2 x hx))),
        parseUnsignedDec_digits _ (by simp) hall2]
      exact ⟨(digitsToNat (c :: t) : ℤ), by simp⟩

theorem rat_frac_den_ne_one (A F k : ℕ) (hF0 : 0 < F) (hFk : F < 10 ^ k) :
    ((A : ℚ) + (F : ℚ) / pow10Q k).den ≠ 1 := by
  intro hden
  set q : ℚ := (A : ℚ) + (F : ℚ) / pow10Q k with hq
  have hnum : (q.num : ℚ) = q := (Rat.den_eq_one_iff q).mp hden
  have hpow : (0 : ℚ) < pow10Q k := by
    unfold pow10Q
    positivity
  have hpos : (0 : ℚ) < (F : ℚ) / pow10Q k := by positivity
  have hlt : (F : ℚ) / pow10Q k < 1 := by
    rw [div_lt_one hpow]
    unfold pow10Q
    exact_mod_cast hFk
  have heq2 : ((q.num - A : ℤ) : ℚ) = (F : ℚ) / pow10Q k := by
    push_cast
    rw [hnum, hq]
    ring
  rw [← heq2] at hpos hlt
  have h1 : 0 < q.num - (A : ℤ) := by exact_mod_cast hpos
  have h2 : q.num - (A : ℤ) < 1 := by exact_mod_cast hlt
  omega

theorem decFrac_decomp (l : List Char) (h1 : decFracShape l = true) :
    ∃ a f, stripSign l = a ++ '.' :: f ∧ a ≠ [] ∧ f ≠ [] ∧
      (∀ c ∈ a, isDigitC c = true) ∧ (∀ c ∈ f, isDigitC c = true) ∧
      f = ((stripSign l).dropWhile isDigitC).tail := by
  simp only [decFracShape, decFracCore, Bool.and_eq_true, Bool.not_eq_true',
    List.isEmpty_eq_false, List.all_eq_true, decide_eq_true_eq] at h1
  obtain ⟨⟨⟨ha, hdot⟩, hfne⟩, hfd⟩ := h1
  set m := stripSign l
  refine ⟨m.takeWhile isDigitC, (m.dropWhile isDigitC).tail, ?_, ha, hfne, ?_, hfd, rfl⟩
  · have hsplit := List.takeWhile_append_dropWhile (p := isDigitC) (l := m)
    have hrest : m.dropWhile isDigitC = '.' :: (m.dropWhile isDigitC).tail := by
      cases hr : m.dropWhile isDigitC with
      | nil => rw [hr] at hdot; simp at hdot
      | cons r0 rt =>
        rw [hr] at hdot
        simp only [List.head?_cons, Option.some_inj] at hdot
        simp [hdot]
    calc m = m.takeWhile isDigitC ++ m.dropWhile isDigitC := hsplit.symm
    _ = m.takeWhile isDigitC ++ '.' :: (m.dropWhile isDigitC).tail := by rw [← hrest]
  · exact fun c hc => mem_takeWhile_sat _ _ c hc

theorem jsStrToNum_of_stripSign (l : List Char)
    (hchars : ∀ c ∈ stripSign l, isDigitC c = true ∨ c = '.')
    (hhead : ∃ c0 t0, stripSign l = c0 :: t0 ∧ isDigitC c0 = true) :
    (l = stripSign l ∨ l = '-' :: stripSign l) ∧
    jsStrToNum l =
      (match parseUnsignedDec (stripSign l) with
       | some q => JSNum.fin (if l = '-' :: stripSign l then -q else q)
       | none => JSNum.nan) := by
  obtain ⟨c0, t0, hst, hc0⟩ := hhead
  cases l with
  | nil => simp [stripSign] at hst
  | cons c t =>
    by_cases hcm : c = '-'
    · subst hcm
      have hst2 : stripSign ('-' :: t) = t := by simp [stripSign]
      rw [hst2] at hst hchars ⊢
      constructor
      · exact Or.inr rfl
      · rw [jsStrToNum_neg t hchars,
          parseSigned_val true t (digits_dot_ne_infinity t hchars)]
        simp
    · have hstrip : stripSign (c :: t) = c :: t := by
        unfold stripSign
        split
        · rename_i r heq
          have : c = '-' := by simpa using congrArg List.head? heq
          exact absurd this hcm
        · rfl
      rw [hstrip] at hst hchars ⊢
      constructor
      · exact Or.inl rfl
      · have hcc : isDigitC c = true := by
          have := congrArg List.head? hst
          simp only [List.head?_cons, Option.some_inj] at this
          rw [this]
          exact hc0
        rw [jsStrToNum_digitdot c t hchars hcc,
          parseSigned_val false _ (digits_dot_ne_infinity _ hchars)]
        have hnc : ¬ (c :: t = '-' :: c :: t) := by
          intro he
          have := congrArg List.length he
          simp at this
        simp [hnc]

theorem jsStrToNum_of_stripSign_some (l : List Char)
    (hchars : ∀ c ∈ stripSign l, isDigitC c = true ∨ c = '.')
    (hhead : ∃ c0 t0, stripSign l = c0 :: t0 ∧ isDigitC c0 = true) (q : ℚ)
    (hq : parseUnsignedDec (stripSign l) = some q) :
    jsStrToNum l = .fin (if l = '-' :: stripSign l then -q else q) := by
  obtain ⟨-, hval⟩ := jsStrToNum_of_stripSign l hchars hhead
  rw [hval, hq]

theorem jsStrToNum_frac_nonint (l : List Char) (h1 : decFracShape l = true)
    (h2 : fracHasNonzero l = true) : ∃ q : ℚ, jsStrToNum l = .fin q ∧ q.den ≠ 1 := by
  obtain ⟨a, f, hm, ha, hf, hda, hdf, hftail⟩ := decFrac_decomp l h1
  have hchars : ∀ c ∈ stripSign l, isDigitC c = true ∨ c = '.' := by
    intro c hc
    rw [hm] at hc
    rcases List.mem_append.mp hc with hca | hcf
    · exact Or.inl (hda c hca)
    · rcases List.mem_cons.mp hcf with rfl | hmem
      · exact Or.inr rfl
      · exact Or.inl (hdf c hmem)
  have hhead : ∃ c0 t0, stripSign l = c0 :: t0 ∧ isDigitC c0 = true := by
    cases hca : a with
    | nil => exact absurd hca ha
    | cons a0 arest =>
      refine ⟨a0, arest ++ '.' :: f, by rw [hm, hca]; simp, ?_⟩
      exact hda a0 (by rw [hca]; exact List.mem_cons_self _ _)
  have hpv : parseUnsignedDec (stripSign l) =
      some ((digitsToNat a : ℚ) + (digitsToNat f : ℚ) / pow10Q f.length) := by
    rw [hm]
    exact parseUnsignedDec_frac a f ha hf hda hdf
  have hFpos : 0 < digitsToNat f := by
    simp only [fracHasNonzero, List.any_eq_true, Bool.not_eq_true', decide_eq_true_eq] at h2
    obtain ⟨c0, hc0mem, hc0ne⟩ := h2
    rw [← hftail] at hc0mem
    exact digitsToNat_pos f hdf c0 hc0mem (by simpa using hc0ne)
  have hFlt : digitsToNat f < 10 ^ f.length := digitsToNat_lt f hdf
  have hden := rat_frac_den_ne_one (digitsToNat a) (digitsToNat f) f.length hFpos hFlt
  have hval2 := jsStrToNum_of_stripSign_some l hchars hhead _ hpv
  by_cases hneg : l = '-' :: stripSign l
  · rw [hval2, if_pos hneg]
    exact ⟨_, rfl, by rw [Rat.neg_den]; exact hden⟩
  · rw [hval2, if_neg hneg]
    exact ⟨_, rfl, hden⟩

theorem udec_cases (m : List Char) (h : matchUDec m = true) :
    (m ≠ [] ∧ ∀ c ∈ m, isDigitC c = true) ∨ decFracCore m = true := by
  simp only [matchUDec, Bool.and_eq_true, Bool.or_eq_true, Bool.not_eq_true',
    List.isEmpty_eq_false] at h
  obtain ⟨hip, hrest⟩ := h
  rcases hrest with hemp | hfrac
  · left
    have hdw : m.dropWhile isDigitC = [] := by simpa using hemp
    constructor
    · intro hm0
      rw [hm0] at hip
      simp at hip
    · intro c hc
      have hsplit := List.takeWhile_append_dropWhile (p := isDigitC) (l := m)
      rw [hdw, List.append_nil] at hsplit
      rw [← hsplit] at hc
      exact mem_takeWhile_sat _ _ c hc
  · right
    simp only [decFracCore, Bool.and_eq_true, Bool.not_eq_true', List.isEmpty_eq_false,
      decide_eq_true_eq]
    simp only [Bool.and_eq_true, decide_eq_true_eq] at hfrac
    exact ⟨⟨⟨hip, hfrac.1.1⟩, by simpa using hfrac.1.2⟩, hfrac.2⟩

theorem jsStrToNum_plain_fin (l : List Char) (h : matchPlainNumRe l = true) :
    ∃ q : ℚ, jsStrToNum l = .fin q := by
  have hud : matchUDec (stripSign l) = true := h
  rcases udec_cases _ hud with ⟨hne, hall⟩ | hfrac
  · have hint : intStrOk l = true := by
      simp only [intStrOk, Bool.and_eq_true, Bool.not_eq_true', List.isEmpty_eq_false,
        List.all_eq_true, decide_eq_true_eq]
      exact ⟨hne, fun c hc => hall c hc⟩
    obtain ⟨z, hz⟩ := jsStrToNum_int l hint
    exact ⟨(z : ℚ), hz⟩
  · obtain ⟨a, f, hm, ha, hf, hda, hdf, -⟩ := decFrac_decomp l (by
      simpa [decFracShape] using hfrac)
    have hchars : ∀ c ∈ stripSign l, isDigitC c = true ∨ c = '.' := by
      intro c hc
      rw [hm] at hc
      rcases List.mem_append.mp hc with hca | hcf
      · exact Or.inl (hda c hca)
      · rcases List.mem_cons.mp hcf with rfl | hmem
        · exact Or.inr rfl
        · exact Or.inl (hdf c hmem)
    have hhead : ∃ c0 t0, stripSign l = c0 :: t0 ∧ isDigitC c0 = true := by
      cases hca : a with
      | nil => exact absurd hca ha
      | cons a0 arest =>
        refine ⟨a0, arest ++ '.' :: f, by rw [hm, hca]; simp, ?_⟩
        exact hda a0 (by rw [hca]; exact List.mem_cons_self _ _)
    have hpv : parseUnsignedDec (stripSign l) =
        some ((digitsToNat a : ℚ) + (digitsToNat f : ℚ) / pow10Q f.length) := by
      rw [hm]
      exact parseUnsignedDec_frac a f ha hf hda hdf
    exact ⟨_, jsStrToNum_of_stripSign_some l hchars hhead _ hpv⟩

theorem stripSign_cons_nonneg (c : Char) (t : List Char) (hcm : c ≠ '-') :
    stripSign (c :: t) = c :: t := by
  unfold stripSign
  split
  · rename_i r heq
    have : c = '-' := by simpa using congrArg List.head? heq
    exact absurd this hcm
  · rfl

theorem mem_stripSign_or_dash (l : List Char) (c : Char) (hc : c ∈ l) :
    c ∈ stripSign l ∨ c = '-' := by
  cases l with
  | nil => cases hc
  | cons c0 t =>
    by_cases hcm : c0 = '-'
    · subst hcm
      rcases List.mem_cons.mp hc with rfl | hmem
      · exact Or.inr rfl
      · exact Or.inl (by simpa [stripSign] using hmem)
    · rw [stripSign_cons_nonneg c0 t hcm]
      exact Or.inl hc

theorem plain_chars (l : List Char) (h : matchPlainNumRe l = true) :
    ∀ c ∈ l, isDigitC c = true ∨ c = '-' ∨ c = '.' := by
  intro c hc
  rcases mem_stripSign_or_dash l c hc with hmem | rfl
  · rcases udec_cases _ h with ⟨-, hall⟩ | hfrac
    · exact Or.inl (hall c hmem)
    · obtain ⟨a, f, hm, -, -, hda, hdf, -⟩ := decFrac_decomp l (by
        simpa [decFracShape] using hfrac)
      rw [hm] at hmem
      rcases List.mem_append.mp hmem with hca | hcf
      · exact Or.inl (hda c hca)
      · rcases List.mem_cons.mp hcf with rfl | hmem2
        · exact Or.inr (Or.inr rfl)
        · exact Or.inl (hdf c hmem2)
  · exact Or.inr (Or.inl rfl)

theorem plain_no_slash (l : List Char) (h : matchPlainNumRe l = true) :
    containsSub l ['/'] = false := by
  cases hs : containsSub l ['/']
  · rfl
  · obtain ⟨a, b, hab⟩ := (containsSub_iff _ _).mp hs
    have hmem : '/' ∈ l := by
      rw [hab]
      simp
    rcases plain_chars l h '/' hmem with h1 | h2 | h3
    · exact absurd h1 (by decide)
    · exact absurd h2 (by decide)
    · exact absurd h3 (by decide)

theorem plain_not_date (o : String → Bool) (s : String)
    (h : matchPlainNumRe s.data = true) : isValidDateS o s = false := by
  unfold isValidDateS
  by_cases h6 : s.data.length < 6
  · rw [if_pos h6]
  · rw [if_neg h6]
    rw [if_neg (by
      have hsl : s.length = s.data.length := rfl
      simp only [Bool.and_eq_true, Bool.not_eq_true', decide_eq_true_eq, not_and]
      intro _
      omega)]
    rw [if_pos (by simp [h, plain_no_slash _ h])]

theorem int_plain (l : List Char) (h : intStrOk l = true) : matchPlainNumRe l = true := by
  simp only [intStrOk, Bool.and_eq_true, Bool.not_eq_true', List.isEmpty_eq_false,
    List.all_eq_true, decide_eq_true_eq] at h
  obtain ⟨hne, hall⟩ := h
  simp only [matchPlainNumRe, matchUDec]
  rw [takeWhile_all _ _ hall, dropWhile_nil_of_all _ _ hall]
  simp [hne]

theorem int_currency (l : List Char) (h : intStrOk l = true) :
    matchCurrencyRe l = true := by
  simp only [intStrOk, Bool.and_eq_true, Bool.not_eq_true', List.isEmpty_eq_false,
    List.all_eq_true, decide_eq_true_eq] at h
  obtain ⟨hne, hall⟩ := h
  simp only [matchCurrencyRe, matchCurrencyCore]
  rw [takeWhile_all _ _ hall, dropWhile_nil_of_all _ _ hall]
  simp [hne, matchGroups]

theorem inferAfterMoney_of_plain (oracle : String → Bool) (vv : List String)
    (lname : List Char) (hplain : ∀ v ∈ vv, matchPlainNumRe v.data = true) :
    inferAfterMoney oracle vv lname = inferNumericOrText vv := by
  unfold inferAfterMoney
  have hdates : vv.filter (fun v => isValidDateS oracle v) = [] :=
    filter_nil_of_all_false _ _ (fun v hv => plain_not_date oracle v (hplain v hv))
  rw [hdates]
  rw [if_neg (by simp)]

theorem numeric_filter_of_plain (vv : List String)
    (hplain : ∀ v ∈ vv, matchPlainNumRe v.data = true) :
    vv.filter (fun v => !jsIsNaNb (jsStrToNum v.data)) = vv :=
  List.filter_eq_self.mpr (fun v hv => by
    obtain ⟨q, hq⟩ := jsStrToNum_plain_fin v.data (hplain v hv)
    simp [hq, jsIsNaNb])

/-- C4, counterexample to the claim as stated: a pure integer-string column
named price is inferred NUMERIC (the money-hint branch preempts the integer
branch, so the result is not independent of the column name), and a column
of decimal-pointed strings that parse to integral values (such as 1.0) is
inferred INTEGER, not NUMERIC.  Both paths never consult the host date
parser. -/
theorem c4_counterexample :
    inferDataType jsDateNever ["1", "2"] "price" = "NUMERIC" ∧
    inferDataType jsDateNever ["1.0"] "region" = "INTEGER" := by
  constructor
  · decide
  · have hval : jsStrToNum "1.0".data = .fin 1 := by
      have hsp : stripSign "1.0".data = ['1'] ++ '.' :: ['0'] := by decide
      have hpu : parseUnsignedDec (stripSign "1.0".data) =
          some ((digitsToNat ['1'] : ℚ) + (digitsToNat ['0'] : ℚ) / pow10Q 1) := by
        rw [hsp]
        exact parseUnsignedDec_frac ['1'] ['0'] (by decide) (by decide)
          (by decide) (by decide)
      have h := jsStrToNum_of_stripSign_some "1.0".data (by decide)
        ⟨'1', ['.', '0'], by decide, by decide⟩ _ hpu
      rw [h, if_neg (by decide)]
      congr 1
      have h1 : digitsToNat ['1'] = 1 := by decide
      have h0 : digitsToNat ['0'] = 0 := by decide
      rw [h1, h0]
      norm_num [pow10Q]
    have hplain : ∀ v ∈ ["1.0"], matchPlainNumRe v.data = true := by decide
    unfold inferDataType
    rw [show filterValid ["1.0"] = ["1.0"] from rfl]
    rw [if_neg (by decide)]
    rw [if_neg (by
      intro hcond
      exact absurd hcond.1 (by decide))]
    rw [inferAfterMoney_of_plain jsDateNever ["1.0"] _ hplain]
    unfold inferNumericOrText
    rw [numeric_filter_of_plain _ hplain, if_pos rfl]
    have hint : ["1.0"].filter (fun v => jsNumIsIntegerB (jsStrToNum v.data)) = ["1.0"] := by
      rw [List.filter_eq_self]
      intro v hv
      have hv2 : v = "1.0" := by simpa using hv
      subst hv2
      simp [hval, jsNumIsIntegerB]
    rw [hint, if_pos rfl]

/-- C4 as amended: for a non-empty sequence of integer strings (within the
double-precision range) whose column name carries no money or quantity hint,
the Type Inference Engine returns INTEGER; and for a non-empty sequence of
plain decimal strings (within double precision) at least one of which has a
decimal point with a nonzero fractional digit, it returns NUMERIC. -/
theorem c4_integer_and_numeric_inference :
    (∀ (oracle : String → Bool) (values : List String) (name : String),
      values ≠ [] →
      (∀ v ∈ values, intStrOk v.data = true ∧ v.data.length ≤ 16) →
      moneyHintName (lowerL name.data) = false →
      inferDataType oracle values name = "INTEGER") ∧
    (∀ (oracle : String → Bool) (values : List String) (name : String),
      values ≠ [] →
      (∀ v ∈ values, matchPlainNumRe v.data = true ∧ v.data.length ≤ 17) →
      (∃ v ∈ values, decFracShape v.data = true ∧ fracHasNonzero v.data = true) →
      inferDataType oracle values name = "NUMERIC") := by
  constructor
  · intro oracle values name hne hvals hname
    have hplain : ∀ v ∈ values, matchPlainNumRe v.data = true :=
      fun v hv => int_plain _ (hvals v hv).1
    have hnemp : ∀ v ∈ values, v ≠ "" := by
      intro v hv heq
      have h1 := (hvals v hv).1
      rw [heq] at h1
      exact absurd h1 (by decide)
    have hfv : filterValid values = values :=
      List.filter_eq_self.mpr (fun v hv => by simpa using hnemp v hv)
    unfold inferDataType
    rw [hfv]
    rw [if_neg (fun h0 => hne (List.eq_nil_of_length_eq_zero h0))]
    rw [if_neg (by simp [hname])]
    rw [inferAfterMoney_of_plain oracle values _ hplain]
    unfold inferNumericOrText
    rw [numeric_filter_of_plain values hplain, if_pos rfl]
    have hintf : values.filter (fun v => jsNumIsIntegerB (jsStrToNum v.data)) = values :=
      List.filter_eq_self.mpr (fun v hv => by
        obtain ⟨z, hz⟩ := jsStrToNum_int v.data (hvals v hv).1
        simp [hz, jsNumIsIntegerB, Rat.den_intCast])
    rw [hintf, if_pos rfl]
  · intro oracle values name hne hvals hfr
    obtain ⟨v0, hv0mem, hv0frac, hv0nz⟩ := hfr
    have hplain : ∀ v ∈ values, matchPlainNumRe v.data = true :=
      fun v hv => (hvals v hv).1
    have hnemp : ∀ v ∈ values, v ≠ "" := by
      intro v hv heq
      have h1 := hplain v hv
      rw [heq] at h1
      exact absurd h1 (by decide)
    have hfv : filterValid values = values :=
      List.filter_eq_self.mpr (fun v hv => by simpa using hnemp v hv)
    have hn1 : 0 < values.length := List.length_pos.mpr hne
    unfold inferDataType
    rw [hfv]
    rw [if_neg (fun h0 => hne (List.eq_nil_of_length_eq_zero h0))]
    by_cases hm : moneyHintName (lowerL name.data) = true
    · have hcfilter : values.filter
          (fun v => isCurrencyS v || !jsIsNaNb (jsStrToNum v.data)) = values :=
        List.filter_eq_self.mpr (fun v hv => by
          obtain ⟨q, hq⟩ := jsStrToNum_plain_fin v.data (hplain v hv)
          simp [hq, jsIsNaNb])
      rw [hcfilter]
      rw [if_pos ⟨hm, hn1, by omega⟩]
    · rw [if_neg (by simp [hm])]
      rw [inferAfterMoney_of_plain oracle values _ hplain]
      unfold inferNumericOrText
      rw [numeric_filter_of_plain values hplain, if_pos rfl]
      obtain ⟨q0, hq0, hq0den⟩ := jsStrToNum_frac_nonint v0.data hv0frac hv0nz
      have hlt := filter_length_lt values
        (fun v => jsNumIsIntegerB (jsStrToNum v.data)) v0 hv0mem
        (by simp [hq0, jsNumIsIntegerB, hq0den])
      rw [if_neg (by omega)]

theorem c4_integer_and_numeric_inference_witness :
    inferDataType jsDateNever ["12", "34"] "region" = "INTEGER" ∧
    inferDataType jsDateNever ["1.5", "2"] "region" = "NUMERIC" :=
  ⟨c4_integer_and_numeric_inference.1 jsDateNever ["12", "34"] "region"
      (by decide) (by decide) (by decide),
   c4_integer_and_numeric_inference.2 jsDateNever ["1.5", "2"] "region"
      (by decide) (by decide) ⟨"1.5", by decide, by decide, by decide⟩⟩

/-- C5: a column whose name contains the substring price (case-insensitively)
and at least 70 percent of whose non-blank values are currency-like or
numeric is inferred NUMERIC, whatever the host date parser would say about
the values (the money branch precedes the date branch). -/
theorem c5_price_column_numeric (oracle : String → Bool) (values : List String)
    (name : String)
    (hp : containsSub (lowerL name.data) "price".data = true)
    (hne : filterValid values ≠ [])
    (hr : 7 * (filterValid values).length ≤
      10 * ((filterValid values).filter
        (fun v => isCurrencyS v || !jsIsNaNb (jsStrToNum v.data))).length) :
    inferDataType oracle values name = "NUMERIC" := by
  have hn1 : 0 < (filterValid values).length := List.length_pos.mpr hne
  unfold inferDataType
  rw [if_neg (fun h0 => hne (List.eq_nil_of_length_eq_zero h0))]
  rw [if_pos ?_]
  refine ⟨List.any_eq_true.mpr ⟨"price", by decide, hp⟩, ?_, hr⟩
  have hle := List.length_filter_le
    (fun v => isCurrencyS v || !jsIsNaNb (jsStrToNum v.data)) (filterValid values)
  omega

theorem c5_price_column_numeric_witness :
    inferDataType (fun _ => true) ["$100", "200", "300.5"] "Unit Price" = "NUMERIC" :=
  c5_price_column_numeric (fun _ => true) ["$100", "200", "300.5"] "Unit Price"
    (by decide) (by decide) (by decide)

/- Schema Normalizer (validateAndAdaptSchema) and Query Intent Classifier
   (QUERY_PATTERNS / detectQueryType) of src/utils/openai.js.  A raw column
   carries the two possible field spellings of each concept; JS falsiness of
   a missing or empty string field is modelled by jsTruthyS.  The sqlHints
   lists of the intent catalog are omitted: no claim and no embedded
   operation reads them. -/

deriving instance DecidableEq for Except

structure RawCol where
  column_name : Option String
  name : Option String
  data_type : Option String
  type : Option String
deriving DecidableEq

def jsTruthyS (o : Option String) : Bool :=
  match o with
  | some s => !(s = "")
  | none => false

def firstTruthyS (a b : Option String) (dflt : String) : String :=
  if jsTruthyS a then a.getD dflt else if jsTruthyS b then b.getD dflt else dflt

def normColName (c : RawCol) : String := firstTruthyS c.column_name c.name ""

def normColType (c : RawCol) : String := firstTruthyS c.data_type c.type "text"

structure NCol where
  name : String
  dtype : String
deriving DecidableEq

def validateAndAdaptSchemaCols (schema : List RawCol) : Except String (List NCol) :=
  let ns := schema.map (fun c => NCol.mk (normColName c) (normColType c))
  if ns.any (fun c => c.name = "") then .error "Column name is required"
  else if ns.any (fun c => c.dtype = "") then .error "Column type is required"
  else .ok ns

def isDateType (t : String) : Bool :=
  containsSub (lowerL t.data) "date".data || containsSub (lowerL t.data) "time".data

def isNumericType (t : String) : Bool :=
  ["int", "numeric", "decimal", "float", "double"].any
    (fun x => containsSub (lowerL t.data) x.data)

def isTextType (t : String) : Bool :=
  ["char", "text", "varchar"].any (fun x => containsSub (lowerL t.data) x.data)

def isBoolType (t : String) : Bool := containsSub (lowerL t.data) "bool".data

def hasColumnTypeGroup (ns : List NCol) (g : String) : Bool :=
  if g = "date" then ns.any (fun c => isDateType c.dtype)
  else if g = "numeric" then ns.any (fun c => isNumericType c.dtype)
  else if g = "text" then ns.any (fun c => isTextType c.dtype)
  else if g = "boolean" then ns.any (fun c => isBoolType c.dtype)
  else false

structure IntentConfig where
  patterns : List String
  keywords : List String
  requiresGroupBy : Bool
  requiredColumnTypes : Option (List String)
deriving DecidableEq

def aggregationConfig : IntentConfig :=
  ⟨["count", "sum", "average", "mean", "total", "aggregate"],
   ["total", "sum", "average", "count", "mean"], true, some ["numeric"]⟩

def comparisonConfig : IntentConfig :=
  ⟨["compare", "difference", "versus", "vs", "against", "between"],
   ["compare", "difference", "versus", "vs", "against", "between"], false,
   some ["numeric", "date"]⟩

def trendingConfig : IntentConfig :=
  ⟨["trend", "over time", "growth", "decline", "increase", "decrease"],
   ["trend", "growth", "decline", "increase", "decrease"], true,
   some ["date", "numeric"]⟩

def rankingConfig : IntentConfig :=
  ⟨["top", "bottom", "highest", "lowest", "best", "worst", "most", "least", "ranking"],
   ["top", "bottom", "highest", "lowest", "best", "worst"], false, some ["numeric"]⟩

def distributionConfig : IntentConfig :=
  ⟨["distribution", "breakdown", "percentage", "ratio", "share"],
   ["distribution", "breakdown", "percentage", "ratio"], true, some ["numeric"]⟩

def temporalConfig : IntentConfig :=
  ⟨["daily", "weekly", "monthly", "yearly", "quarter", "year", "month", "day", "date"],
   ["daily", "weekly", "monthly", "yearly"], true, some ["date"]⟩

def QUERY_PATTERNS : List (String × IntentConfig) :=
  [("aggregation", aggregationConfig), ("comparison", comparisonConfig),
   ("trending", trendingConfig), ("ranking", rankingConfig),
   ("distribution", distributionConfig), ("temporal", temporalConfig)]

def patternOrKeywordHit (cfg : IntentConfig) (ql : List Char) : Bool :=
  cfg.patterns.any (fun p => containsSub ql p.data) ||
    cfg.keywords.any (fun k => containsSub ql k.data)

def contextHit (tname : String) (ql : List Char) (ns : List NCol) : Bool :=
  (tname = "temporal" && hasColumnTypeGroup ns "date") ||
    ((tname = "aggregation" || tname = "ranking") && hasColumnTypeGroup ns "numeric" &&
      (containsSub ql "total".data || containsSub ql "most".data))

def intentAdded (ql : List Char) (ns : List NCol) (tname : String)
    (cfg : IntentConfig) : Bool :=
  match cfg.requiredColumnTypes with
  | none => true
  | some req =>
    req.all (fun r => hasColumnTypeGroup ns r) &&
      (patternOrKeywordHit cfg ql || contextHit tname ql ns)

def detectQueryType (query : String) (schema : List RawCol) :
    Except String (List String) :=
  match validateAndAdaptSchemaCols schema with
  | .error e => .error e
  | .ok ns =>
    let ql := lowerL query.data
    let ts := (QUERY_PATTERNS.filter
      (fun pc => intentAdded ql ns pc.1 pc.2)).map (fun pc => pc.1)
    .ok (if ts.isEmpty then ["general"] else ts)

/-- C2, counterexample to the claim as stated: on the query text hello with a
single date-typed column, the classifier returns the intent set [temporal]
although neither the temporal regex alternatives nor its keywords occur in
the text — the intent is added by the schema-only context rule. -/
theorem c2_counterexample :
    detectQueryType "hello" [⟨some "d", none, some "date", none⟩] = .ok ["temporal"] ∧
    patternOrKeywordHit temporalConfig (lowerL "hello".data) = false := by
  constructor
  · decide
  · decide

/-- C2 as amended: an intent other than general enters the result set only if
its required column types are all available AND its keyword/regex pattern
matches the query text OR one of the two context rules fires (temporal is
added whenever a date column exists; aggregation and ranking are added
whenever a numeric column exists and the text contains total or most). -/
theorem c2_pattern_or_context_necessary :
    ∀ (q : String) (schema : List RawCol) (ts : List String),
      detectQueryType q schema = .ok ts →
      ∀ t ∈ ts, t ≠ "general" →
        ∃ ns cfg, validateAndAdaptSchemaCols schema = .ok ns ∧
          (t, cfg) ∈ QUERY_PATTERNS ∧
          (∀ r ∈ cfg.requiredColumnTypes.getD [], hasColumnTypeGroup ns r = true) ∧
          (patternOrKeywordHit cfg (lowerL q.data) = true ∨
            contextHit t (lowerL q.data) ns = true) := by
  intro q schema ts hok t ht htg
  unfold detectQueryType at hok
  cases hv : validateAndAdaptSchemaCols schema with
  | error e => rw [hv] at hok; cases hok
  | ok ns =>
    rw [hv] at hok
    simp only [Except.ok.injEq] at hok
    subst hok
    split at ht
    · have : t = "general" := by simpa using ht
      exact absurd this htg
    · obtain ⟨pc, hpc, hpct⟩ := List.mem_map.mp ht
      have hfil := List.mem_filter.mp hpc
      obtain ⟨hpcmem, hadded⟩ := hfil
      have hsome : ∀ pc ∈ QUERY_PATTERNS, pc.2.requiredColumnTypes.isSome = true := by
        decide
      obtain ⟨req, hreq⟩ := Option.isSome_iff_exists.mp (hsome pc hpcmem)
      refine ⟨ns, pc.2, rfl, ?_, ?_, ?_⟩
      · rw [← hpct]
        simpa using hpcmem
      · intro r hr
        rw [hreq] at hr
        simp only [Option.getD_some] at hr
        unfold intentAdded at hadded
        rw [hreq] at hadded
        simp only [Bool.and_eq_true, List.all_eq_true] at hadded
        exact hadded.1 r hr
      · unfold intentAdded at hadded
        rw [hreq] at hadded
        simp only [Bool.and_eq_true, Bool.or_eq_true] at hadded
        rw [hpct] at hadded
        exact hadded.2

theorem c2_pattern_or_context_necessary_witness :
    ∃ ns cfg,
      validateAndAdaptSchemaCols [⟨some "d", none, some "date", none⟩] = .ok ns ∧
      ("temporal", cfg) ∈ QUERY_PATTERNS ∧
      (∀ r ∈ cfg.requiredColumnTypes.getD [], hasColumnTypeGroup ns r = true) ∧
      (patternOrKeywordHit cfg (lowerL "hello".data) = true ∨
        contextHit "temporal" (lowerL "hello".data) ns = true) :=
  c2_pattern_or_context_necessary "hello" [⟨some "d", none, some "date", none⟩]
    ["temporal"] (by decide) "temporal" (by decide) (by decide)

/- Result Shaper (formatQueryResults).  Result rows are JS objects keyed by
   column name; values are strings, numbers or null as delivered by the
   driver.  Number(value) of a missing key (undefined) is NaN; of null it
   is 0.  The display of non-integral numeric values in answer texts is a
   placeholder (num/den): no embedded claim reads answer texts of
   non-integral values. -/

inductive JsVal where
  | vstr : String → JsVal
  | vnum : ℚ → JsVal
  | vnull : JsVal
deriving DecidableEq

def lookupRow (r : List (String × JsVal)) (k : String) : Option JsVal :=
  match r.find? (fun e => e.1 = k) with
  | some e => some e.2
  | none => none

def jsToNumber : JsVal → JSNum
  | .vstr s => jsStrToNum s.data
  | .vnum q => .fin q
  | .vnull => .fin 0

def jsToNumberOpt : Option JsVal → JSNum
  | some v => jsToNumber v
  | none => .nan

def ratDisplay (q : ℚ) : String :=
  if q.den = 1 then
    (if q.num < 0 then "-" ++ toString q.num.natAbs else toString q.num.natAbs)
  else toString q.num.natAbs ++ "/" ++ toString q.den

def jsValDisplay : JsVal → String
  | .vstr s => s
  | .vnum q => ratDisplay q
  | .vnull => "null"

structure ChartData where
  ctype : String
  labels : List (Option JsVal)
  datasetLabel : String
  data : List JSNum
deriving DecidableEq

structure FormattedResult where
  answer : String
  chart_data : Option ChartData
deriving DecidableEq

def isTimeLabel (k : String) : Bool :=
  ["month", "date", "day", "time"].any (fun h => containsSub (lowerL k.data) h.data)

def chartTypeOf (query : String) (labelColumn : String) (n : Nat) : String :=
  if isTimeLabel labelColumn then "line"
  else if 10 < n then "bar"
  else if n ≤ 8 ∧ (containsSub (lowerL query.data) "breakdown".data
      || containsSub (lowerL query.data) "distribution".data) = true then "pie"
  else "bar"

def inferChart (query : String) (rows : List (List (String × JsVal))) :
    Option ChartData :=
  if 0 < rows.length ∧ rows.length ≤ 50 then
    match rows with
    | [] => none
    | r0 :: _ =>
      if 2 ≤ (r0.map Prod.fst).length then
        match (r0.map Prod.fst).filter
            (fun k => !jsIsNaNb (jsToNumberOpt (lookupRow r0 k))) with
        | [] => none
        | valueColumn :: _ =>
          some ⟨chartTypeOf query
                  (((r0.map Prod.fst).find? (fun k => !(k = valueColumn))).getD
                    ((r0.map Prod.fst).headD "")) rows.length,
                rows.map (fun r => lookupRow r
                  (((r0.map Prod.fst).find? (fun k => !(k = valueColumn))).getD
                    ((r0.map Prod.fst).headD ""))),
                valueColumn,
                rows.map (fun r => jsToNumberOpt (lookupRow r valueColumn))⟩
      else none
  else none

def answerOf (query : String) (rows : List (List (String × JsVal))) : String :=
  let ql := lowerL query.data
  let isCountQuery := containsSub ql "how many".data || containsSub ql "count".data
  let isSumQuery := containsSub ql "total".data || containsSub ql "sum".data
  let isAverageQuery := containsSub ql "average".data || containsSub ql "avg".data
  let isMaxMinQuery := containsSub ql "highest".data || containsSub ql "lowest".data ||
    containsSub ql "maximum".data || containsSub ql "minimum".data ||
    containsSub ql "best".data || containsSub ql "worst".data
  match rows with
  | [] => "No data found for your query."
  | [[(key, value)]] =>
    if isCountQuery then "Found " ++ jsValDisplay value ++ " records."
    else if isSumQuery then "The total " ++ key ++ " is " ++ jsValDisplay value ++ "."
    else if isAverageQuery then
      "The average " ++ key ++ " is " ++ jsValDisplay value ++ "."
    else if isMaxMinQuery then "The " ++ key ++ " is " ++ jsValDisplay value ++ "."
    else "The " ++ key ++ " is " ++ jsValDisplay value ++ "."
  | rs => "Found " ++ toString rs.length ++ " results."

def formatQueryResults (query : String) (rows : List (List (String × JsVal))) :
    FormattedResult :=
  ⟨answerOf query rows, inferChart query rows⟩

theorem head?_filter_eq_find? {α : Type} (p : α → Bool) (l : List α) :
    (l.filter p).head? = l.find? p := by
  induction l with
  | nil => rfl
  | cons c t ih =>
    rw [List.filter_cons]
    by_cases hc : p c = true
    · rw [if_pos (by simp [hc]), List.find?_cons_of_pos _ hc]
      rfl
    · rw [Bool.not_eq_true] at hc
      rw [if_neg (by simp [hc]), List.find?_cons_of_neg _ (by simp [hc])]
      exact ih

def c6rows : List (List (String × JsVal)) :=
  [[("a", .vstr "1"), ("b", .vstr "x")], [("a", .vstr "oops"), ("b", .vstr "y")]]

/-- C6, counterexample to the claim as stated: the Result Shaper picks column
a as the value series although not all of its values are numeric-parseable —
only the first row is inspected, and the emitted dataset contains NaN for the
second row. -/
theorem c6_counterexample :
    ((formatQueryResults "q" c6rows).chart_data.map (fun cd => cd.datasetLabel))
      = some "a" ∧
    ((formatQueryResults "q" c6rows).chart_data.map (fun cd => cd.labels))
      = some [some (.vstr "x"), some (.vstr "y")] ∧
    ((formatQueryResults "q" c6rows).chart_data.map (fun cd => cd.data.map jsIsNaNb))
      = some [false, true] ∧
    (c6rows.map (fun r => jsIsNaNb (jsToNumberOpt (lookupRow r "a")))) = [false, true] := by
  refine ⟨?_, ?_, ?_, ?_⟩ <;> rfl

/-- C6 as amended: a chart is produced only when the row count is in (0, 50]
and the first row has at least two columns; the value series is the first
column in original key order whose FIRST-ROW value is numeric-parseable
(later rows are not inspected), and the label series is the first other
column. -/
theorem c6_chart_gating_and_selection :
    ∀ (q : String) (rows : List (List (String × JsVal))) (cd : ChartData),
      (formatQueryResults q rows).chart_data = some cd →
      0 < rows.length ∧ rows.length ≤ 50 ∧
      ∃ r0 rest, rows = r0 :: rest ∧ 2 ≤ (r0.map Prod.fst).length ∧
        (r0.map Prod.fst).find?
          (fun k => !jsIsNaNb (jsToNumberOpt (lookupRow r0 k))) = some cd.datasetLabel ∧
        cd.labels = rows.map (fun r => lookupRow r
          (((r0.map Prod.fst).find? (fun k => !(k = cd.datasetLabel))).getD
            ((r0.map Prod.fst).headD ""))) ∧
        cd.data = rows.map (fun r => jsToNumberOpt (lookupRow r cd.datasetLabel)) := by
  intro q rows cd hok
  have hchart : inferChart q rows = some cd := hok
  unfold inferChart at hchart
  split at hchart
  · rename_i h50
    split at hchart
    · cases hchart
    · rename_i r0 rest
      split at hchart
      · rename_i hk
        split at hchart
        · cases hchart
        · rename_i v vs hpn
          simp only [Option.some_inj] at hchart
          subst hchart
          refine ⟨h50.1, h50.2, r0, rest, rfl, hk, ?_, rfl, rfl⟩
          rw [← head?_filter_eq_find?, hpn]
          rfl
      · cases hchart
  · cases hchart

theorem c6_chart_gating_and_selection_witness :
    0 < ([[("m", JsVal.vstr "5"), ("n", JsVal.vstr "hello")]] :
        List (List (String × JsVal))).length ∧
    ([[("m", JsVal.vstr "5"), ("n", JsVal.vstr "hello")]] :
        List (List (String × JsVal))).length ≤ 50 ∧
    ∃ r0 rest, ([[("m", JsVal.vstr "5"), ("n", JsVal.vstr "hello")]] :
        List (List (String × JsVal))) = r0 :: rest ∧
      2 ≤ (r0.map Prod.fst).length ∧
      (r0.map Prod.fst).find?
        (fun k => !jsIsNaNb (jsToNumberOpt (lookupRow r0 k))) = some "m" ∧
      ([some (JsVal.vstr "hello")] : List (Option JsVal)) =
        ([[("m", JsVal.vstr "5"), ("n", JsVal.vstr "hello")]] :
          List (List (String × JsVal))).map (fun r => lookupRow r
          (((r0.map Prod.fst).find? (fun k => !(k = "m"))).getD
            ((r0.map Prod.fst).headD ""))) ∧
      ([jsToNumber (JsVal.vstr "5")] : List JSNum) =
        ([[("m", JsVal.vstr "5"), ("n", JsVal.vstr "hello")]] :
          List (List (String × JsVal))).map
          (fun r => jsToNumberOpt (lookupRow r "m")) :=
  c6_chart_gating_and_selection "z" [[("m", JsVal.vstr "5"), ("n", JsVal.vstr "hello")]]
    ⟨"bar", [some (JsVal.vstr "hello")], "m", [jsToNumber (JsVal.vstr "5")]⟩ (by rfl)

/- Table Relevance Selector: the table-selection logic of processQuery when no
   table name is supplied.  A candidate table carries its name, the sample row
   fetched for scoring (none models both a failed and an empty sample read,
   which the source treats alike by skipping the sample contribution), and its
   catalog column names.  The selection method records which rule fired:
   the single-candidate shortcut, the top relevance score, the business-name
   fallback, or the first-table default. -/

structure TableEntry where
  tname : String
  sampleRow : Option (List (String × JsVal))
  columns : List String
deriving DecidableEq

inductive SelMethod where
  | onlyOne : SelMethod
  | byScore : SelMethod
  | businessName : SelMethod
  | firstDefault : SelMethod
deriving DecidableEq

structure Selection where
  table : String
  method : SelMethod
deriving DecidableEq

def businessColKeywords : List String :=
  ["product", "sale", "order", "customer", "price", "quantity", "inventory", "item"]

def businessTableKeywords : List String :=
  ["sales", "order", "product", "customer", "inventory", "business"]

def splitOnChar (sep : Char) : List Char → List (List Char)
  | [] => [[]]
  | c :: t =>
    match splitOnChar sep t with
    | [] => [[c]]
    | h :: r => if c = sep then [] :: h :: r else (c :: h) :: r

def scoreTable (ql : List Char) (t : TableEntry) : Nat :=
  let tableWords := splitOnChar ' '
    (t.tname.data.map (fun c => if c = '_' then ' ' else c))
  let wordScore := 10 * (tableWords.filter
    (fun w => 3 < w.length && containsSub ql (lowerL w))).length
  let sampleScore :=
    match t.sampleRow with
    | none => 0
    | some row => 15 * ((row.map Prod.snd).filter
        (fun v => match v with
          | .vstr s => !(s = "") && 3 < s.data.length && containsSub ql (lowerL s.data)
          | _ => false)).length
  let colScore := (t.columns.map (fun c =>
    (if containsSub ql (lowerL c.data) then 5 else 0) +
      3 * (businessColKeywords.filter
        (fun k => containsSub (lowerL c.data) k.data)).length)).sum
  wordScore + sampleScore + colScore

def firstMax : List (String × Nat) → Option (String × Nat)
  | [] => none
  | h :: t => some (t.foldl (fun best x => if best.2 < x.2 then x else best) h)

def businessFallback (tables : List TableEntry) : Except String Selection :=
  match tables.find? (fun t => businessTableKeywords.any
      (fun k => containsSub (lowerL t.tname.data) k.data)) with
  | some t => .ok ⟨t.tname, .businessName⟩
  | none =>
    match tables with
    | [] => .error "No data tables available in the database. Please upload data first."
    | t :: _ => .ok ⟨t.tname, .firstDefault⟩

def selectTable (queryText : String) (tables : List TableEntry) :
    Except String Selection :=
  match tables with
  | [] => .error "No data tables available in the database. Please upload data first."
  | [t] => .ok ⟨t.tname, .onlyOne⟩
  | _ =>
    let ql := lowerL queryText.data
    let scores := tables.map (fun t => (t.tname, scoreTable ql t))
    match firstMax scores with
    | some best => if 0 < best.2 then .ok ⟨best.1, .byScore⟩ else businessFallback tables
    | none => businessFallback tables

/-- C7: with exactly one candidate data table, the selector returns that table
through the single-candidate shortcut, before any relevance score is
computed. -/
theorem c7_single_table_shortcut (q : String) (t : TableEntry) :
    selectTable q [t] = .ok ⟨t.tname, .onlyOne⟩ := rfl

/- SQL identifier repair (fixSqlQuery of src/utils/openai.js).  Each regex
   replace of the source is an explicit scanner; scanners consume input
   left to right, skip over a replaced span, and never rescan replacement
   text, which is the global-replace semantics of RegExp.  Table and column
   names are treated as regex-literal text (names containing regex
   metacharacters would alter or break the constructed RegExp in the source;
   the repair theorems restrict to word-shaped names). -/

def collapseWs : Bool → List Char → List Char
  | _, [] => []
  | prevWs, c :: t =>
    if jsWsChar c then
      (if prevWs then collapseWs true t else ' ' :: collapseWs true t)
    else c :: collapseWs false t

def wsRunLen : List Char → Nat
  | [] => 0
  | c :: t => if jsWsChar c then wsRunLen t + 1 else 0

def sepFixLen (sep : Char) (l : List Char) : Option Nat :=
  let k := wsRunLen l
  match (l.drop k).head? with
  | some c => if c = sep then some (k + 1 + wsRunLen (l.drop (k + 1))) else none
  | none => none

def sepFix (sep : Char) (repl : List Char) : Nat → List Char → List Char
  | _ + 1, [] => []
  | k + 1, _ :: t => sepFix sep repl k t
  | 0, [] => []
  | 0, c :: t =>
    match sepFixLen sep (c :: t) with
    | some L => repl ++ sepFix sep repl (L - 1) t
    | none => c :: sepFix sep repl 0 t

def normalizeSpacing (l : List Char) : List Char :=
  sepFix ')' ")".data 0 (sepFix '(' "(".data 0 (sepFix ',' ", ".data 0
    (collapseWs false l)))

def quoteAfterWs (l : List Char) : Bool := (l.dropWhile jsWsChar).head? = some '"'

def prefCIEq : List Char → List Char → Bool
  | [], _ => true
  | _ :: _, [] => false
  | a :: v, c :: t => lowChar c = a && prefCIEq v t

def rightBd : List Char → Bool
  | [] => true
  | c :: _ => !wordChar c

def matchColHere (w : List Char) (s : List Char) : Bool :=
  prefCIEq w s && rightBd (s.drop w.length) && !quoteAfterWs (s.drop w.length)

def colQuoteA (w p : List Char) : Bool → Nat → List Char → List Char
  | _, _ + 1, [] => []
  | _, k + 1, c :: t => colQuoteA w p (wordChar c) k t
  | _, 0, [] => []
  | prev, 0, c :: t =>
    if !prev && matchColHere w (c :: t) then
      '"' :: (p ++ '"' :: colQuoteA w p true (w.length - 1) t)
    else c :: colQuoteA w p (wordChar c) 0 t

def colQuote (w p : List Char) (s : List Char) : List Char := colQuoteA w p false 0 s

def matchFromHere (tn : List Char) (prev : Bool) (s : List Char) : Option Nat :=
  if prev then none
  else if prefCIEq "from".data s then
    let r := s.drop 4
    let k := wsRunLen r
    if k = 0 then none
    else if prefCIEq (lowerL tn) (r.drop k) then
      match (r.drop k).drop tn.length with
      | [] => some (4 + k + tn.length)
      | c :: _ => if wordChar c then none else some (4 + k + tn.length)
    else none
  else none

def fromQuoteA (tn : List Char) : Bool → Nat → List Char → List Char
  | _, _ + 1, [] => []
  | _, k + 1, c :: t => fromQuoteA tn (wordChar c) k t
  | _, 0, [] => []
  | prev, 0, c :: t =>
    match matchFromHere tn prev (c :: t) with
    | some L => ("FROM \"".data ++ tn ++ ['"']) ++ fromQuoteA tn true (L - 1) t
    | none => c :: fromQuoteA tn (wordChar c) 0 t

def matchFromClauseLen (s : List Char) : Option Nat :=
  if prefCIEq "from".data s then
    let r := s.drop 4
    let k := wsRunLen r
    if k = 0 then none
    else
      match r.drop k with
      | '"' :: r2 =>
        let m := r2.takeWhile (fun c => !(c = '"'))
        if m.isEmpty then none
        else
          match r2.drop m.length with
          | '"' :: _ => some (4 + k + 1 + m.length + 1)
          | _ => none
      | _ => none
  else none

def countFromClauses : Nat → List Char → Nat
  | _ + 1, [] => 0
  | k + 1, _ :: t => countFromClauses k t
  | 0, [] => 0
  | 0, c :: t =>
    match matchFromClauseLen (c :: t) with
    | some L => countFromClauses (L - 1) t + 1
    | none => countFromClauses 0 t

def matchesFromEnd (s : List Char) : Bool :=
  match matchFromClauseLen s with
  | some L => (s.drop L).all jsWsChar
  | none => false

def removeEndFromClause : List Char → List Char
  | [] => []
  | c :: t => if matchesFromEnd (c :: t) then [] else c :: removeEndFromClause t

def dupFromStep (s : List Char) : List Char :=
  if 1 < countFromClauses 0 s then removeEndFromClause s else s

def matchAliasHere (s : List Char) : Option (List Char × List Char × Nat) :=
  match s with
  | '"' :: r =>
    (let c1 := r.takeWhile (fun c => !(c = '"'))
     match r.drop c1.length with
     | '"' :: r2 =>
       (let k := wsRunLen r2
        match r2.drop k with
        | '"' :: r3 =>
          (let c2 := r3.takeWhile (fun c => !(c = '"'))
           match r3.drop c2.length with
           | '"' :: _ => some (c1, c2, 1 + c1.length + 1 + k + 1 + c2.length + 1)
           | _ => none)
        | _ => none)
     | _ => none)
  | _ => none

def aliasFixA : Nat → List Char → List Char
  | _ + 1, [] => []
  | k + 1, _ :: t => aliasFixA k t
  | 0, [] => []
  | 0, c :: t =>
    match matchAliasHere (c :: t) with
    | some (c1, c2, L) => ('"' :: (c1 ++ '_' :: c2) ++ ['"']) ++ aliasFixA (L - 1) t
    | none => c :: aliasFixA 0 t

def jsColName (c : RawCol) : Except String String :=
  if jsTruthyS c.name then .ok (c.name.getD "")
  else
    match c.column_name with
    | some s => .ok s
    | none => .error "TypeError: cannot read toLowerCase of undefined"

def jsObjectInsert (m : List (String × String)) (k v : String) :
    List (String × String) :=
  if m.any (fun e => e.1 = k) then m.map (fun e => if e.1 = k then (k, v) else e)
  else m ++ [(k, v)]

def buildColumnMapAux (m : List (String × String)) :
    List RawCol → Except String (List (String × String))
  | [] => .ok m
  | c :: rest =>
    match jsColName c with
    | .error e => .error e
    | .ok n => buildColumnMapAux (jsObjectInsert m (String.mk (lowerL n.data)) n) rest

def applyColumnMap (m : List (String × String)) (s : List Char) : List Char :=
  m.foldl (fun acc e => colQuote e.1.data e.2.data acc) s

def fixSqlBody (sql : String) (schema : Option (List RawCol)) (tn : Option String) :
    Except String String := do
  let s0 := normalizeSpacing sql.data
  let s1 ← match schema with
    | some arr => do
      let m ← buildColumnMapAux [] arr
      pure (applyColumnMap m s0)
    | none => pure s0
  let s2 := match tn with
    | some t => if !(t = "") then fromQuoteA t.data false 0 s1 else s1
    | none => s1
  let s3 := dupFromStep s2
  let s4 := aliasFixA 0 s3
  pure (String.mk (jsTrimL (normalizeSpacing s4)))

def fixSqlQuery (sql : String) (schema : Option (List RawCol)) (tn : Option String) :
    String :=
  match fixSqlBody sql schema tn with
  | .ok r => r
  | .error _ => sql

/-- C10: the identifier-repair function is total and atomic on failure: it is
a total function, and whenever its internal pipeline raises (the modelled
failure is reading a name from a schema column that has neither a name nor a
column_name field, the TypeError of the source), the original input string is
returned unchanged rather than a partially repaired one. -/
theorem c10_fix_total_atomic (sql : String) (schema : Option (List RawCol))
    (tn : Option String) :
    (∀ e, fixSqlBody sql schema tn = .error e → fixSqlQuery sql schema tn = sql) ∧
    (∀ r, fixSqlBody sql schema tn = .ok r → fixSqlQuery sql schema tn = r) := by
  constructor
  · intro e he
    unfold fixSqlQuery
    rw [he]
  · intro r hr
    unfold fixSqlQuery
    rw [hr]

theorem c10_fix_total_atomic_witness :
    fixSqlQuery "select  price from sales" (some [⟨none, none, some "NUMERIC", none⟩])
      (some "sales") = "select  price from sales" :=
  (c10_fix_total_atomic "select  price from sales"
      (some [⟨none, none, some "NUMERIC", none⟩]) (some "sales")).1
    "TypeError: cannot read toLowerCase of undefined" (by rfl)

def c8input : String := "SELECT x FROM \"a\" FROM \"b\" FROM \"c\""

/-- C8, counterexample to the claim as stated: identifier repair is not
idempotent.  On a string still containing two duplicate FROM clauses after
one pass, the duplicate-FROM-removal step fires again on the second pass and
removes a further clause, so re-running the stage changes the string. -/
theorem c8_counterexample :
    fixSqlQuery (fixSqlQuery c8input (some []) (some "t")) (some []) (some "t") ≠
      fixSqlQuery c8input (some []) (some "t") := by decide

/- Idempotence analysis of the column-quoting pass (the per-column
   regex replace of fixSqlQuery).  The negative lookahead (?!\s*")
   prevents a second pass from quoting an already-quoted identifier. -/

theorem lowerL_length (p : List Char) : (lowerL p).length = p.length := by
  simp [lowerL]

theorem lowerL_all_word (p : List Char) (h : ∀ c ∈ p, wordChar c = true) :
    ∀ a ∈ lowerL p, wordChar a = true := by
  intro a ha
  simp only [lowerL, List.mem_map] at ha
  obtain ⟨x, hx, hax⟩ := ha
  rw [← hax, lowChar_wordChar]
  exact h x hx

theorem word_of_lowChar_eq (c a : Char) (hla : lowChar c = a) (ha : wordChar a = true) :
    wordChar c = true := by
  rw [← lowChar_wordChar c, hla]
  exact ha

theorem prefCIEq_self_append (p x : List Char) : prefCIEq (lowerL p) (p ++ x) = true := by
  induction p with
  | nil => rfl
  | cons c t ih => simp [lowerL, prefCIEq, List.map_cons] at ih ⊢; exact ih

theorem prefCIEq_length_le (v : List Char) : ∀ s, prefCIEq v s = true → v.length ≤ s.length := by
  induction v with
  | nil => intro s _; simp
  | cons a v ih =>
    intro s h
    cases s with
    | nil => exact absurd h (by simp [prefCIEq])
    | cons c t =>
      simp only [prefCIEq, Bool.and_eq_true] at h
      simpa using ih t h.2

theorem prefCIEq_take (v : List Char) : ∀ s, prefCIEq v (s.take v.length) = prefCIEq v s := by
  induction v with
  | nil => intro s; rfl
  | cons a v ih =>
    intro s
    cases s with
    | nil => simp
    | cons c t => simp only [List.length_cons, List.take_succ_cons, prefCIEq, ih t]

theorem prefCIEq_append_of (v : List Char) :
    ∀ m x, prefCIEq v m = true → prefCIEq v (m ++ x) = true := by
  induction v with
  | nil => intro m x _; rfl
  | cons a v ih =>
    intro m x h
    cases m with
    | nil => exact absurd h (by simp [prefCIEq])
    | cons c t =>
      simp only [prefCIEq, Bool.and_eq_true] at h
      simp only [List.cons_append, prefCIEq, Bool.and_eq_true]
      exact ⟨h.1, ih t x h.2⟩

theorem prefCIEq_take_all_word (v : List Char) (hv : ∀ a ∈ v, wordChar a = true) :
    ∀ s, prefCIEq v s = true → ∀ c ∈ s.take v.length, wordChar c = true := by
  induction v with
  | nil => intro s _ c hc; simp at hc
  | cons a v ih =>
    intro s h c hc
    cases s with
    | nil => simp at hc
    | cons d t =>
      simp only [prefCIEq, Bool.and_eq_true, decide_eq_true_eq] at h
      simp only [List.length_cons, List.take_succ_cons, List.mem_cons] at hc
      rcases hc with rfl | hc
      · exact word_of_lowChar_eq c a h.1 (hv a (List.mem_cons_self _ _))
      · exact ih (fun x hx => hv x (List.mem_cons_of_mem _ hx)) t h.2 c hc

theorem cq_step_nomatch (w p : List Char) (b : Bool) (c : Char) (t : List Char)
    (h : (!b && matchColHere w (c :: t)) = false) :
    colQuoteA w p b 0 (c :: t) = c :: colQuoteA w p (wordChar c) 0 t := by
  simp only [colQuoteA, h]
  simp

theorem cq_step_match (w p : List Char) (b : Bool) (c : Char) (t : List Char)
    (h : (!b && matchColHere w (c :: t)) = true) :
    colQuoteA w p b 0 (c :: t) =
      '"' :: (p ++ '"' :: colQuoteA w p true (w.length - 1) t) := by
  simp only [colQuoteA, h]
  simp

theorem cq_no_match_nonword (p : List Char) (hne : p ≠ [])
    (hword : ∀ c ∈ p, wordChar c = true) (c : Char) (hc : wordChar c = false)
    (t : List Char) : matchColHere (lowerL p) (c :: t) = false := by
  obtain ⟨p0, p', rfl⟩ := List.exists_cons_of_ne_nil hne
  have hd : decide (lowChar c = lowChar p0) = false := by
    apply decide_eq_false
    intro heq
    have h1 : wordChar (lowChar c) = wordChar (lowChar p0) := by rw [heq]
    rw [lowChar_wordChar, lowChar_wordChar, hc, hword p0 (List.mem_cons_self _ _)] at h1
    cases h1
  simp [matchColHere, lowerL, List.map_cons, prefCIEq, hd]

theorem cq_wordrun (w p : List Char) :
    ∀ q r, (∀ c ∈ q, wordChar c = true) →
      colQuoteA w p true 0 (q ++ r) = q ++ colQuoteA w p true 0 r := by
  intro q
  induction q with
  | nil => intro r _; rfl
  | cons c q ih =>
    intro r hq
    have hc : wordChar c = true := hq c (List.mem_cons_self _ _)
    rw [List.cons_append, cq_step_nomatch w p true c (q ++ r) (by simp), hc,
      ih r (fun d hd => hq d (List.mem_cons_of_mem _ hd))]
    rfl

theorem cq_skip (w p : List Char) :
    ∀ (k : Nat) (t : List Char), k ≤ t.length → (∀ c ∈ t.take k, wordChar c = true) →
      colQuoteA w p true k t = colQuoteA w p true 0 (t.drop k) := by
  intro k
  induction k with
  | zero => intro t _ _; rfl
  | succ k ih =>
    intro t hk ht
    cases t with
    | nil => simp at hk
    | cons c t =>
      have hc : wordChar c = true := ht c (by simp)
      show colQuoteA w p (wordChar c) k t = _
      rw [hc, List.drop_succ_cons,
        ih t (by simpa using hk) (fun d hd => ht d (by simp [List.take_succ_cons]; right; exact hd))]

theorem cq_ws_quote (p : List Char) (hne : p ≠ []) (hword : ∀ c ∈ p, wordChar c = true) :
    ∀ u rest b, (∀ c ∈ u, jsWsChar c = true) →
      colQuoteA (lowerL p) p b 0 (u ++ '"' :: rest) =
        u ++ '"' :: colQuoteA (lowerL p) p false 0 rest := by
  intro u
  induction u with
  | nil =>
    intro rest b _
    rw [List.nil_append,
      cq_step_nomatch (lowerL p) p b '"' rest
        (by rw [cq_no_match_nonword p hne hword '"' (by decide) rest]; simp),
      show wordChar '"' = false from by decide]
    rfl
  | cons c u ih =>
    intro rest b hu
    have hc : jsWsChar c = true := hu c (List.mem_cons_self _ _)
    rw [List.cons_append,
      cq_step_nomatch (lowerL p) p b c (u ++ '"' :: rest)
        (by rw [cq_no_match_nonword p hne hword c (ws_not_word c hc) _]; simp),
      ih rest (wordChar c) (fun d hd => hu d (List.mem_cons_of_mem _ hd))]
    rfl

theorem cq_quoted_tail_no_match (p : List Char) (hne : p ≠ []) (r : List Char) :
    matchColHere (lowerL p) (p ++ '"' :: r) = false := by
  have hdrop : (p ++ '"' :: r).drop (lowerL p).length = '"' :: r := by
    rw [lowerL_length]
    exact List.drop_left p ('"' :: r)
  have hq : quoteAfterWs ('"' :: r) = true := by
    simp [quoteAfterWs, List.dropWhile_cons, show jsWsChar '"' = false from by decide]
  simp [matchColHere, hdrop, hq]

theorem cq_scan_quoted (p : List Char) (hne : p ≠ [])
    (hword : ∀ c ∈ p, wordChar c = true) (r : List Char) (b : Bool) :
    colQuoteA (lowerL p) p b 0 ('"' :: (p ++ '"' :: r)) =
      '"' :: (p ++ '"' :: colQuoteA (lowerL p) p false 0 r) := by
  rw [cq_step_nomatch (lowerL p) p b '"' (p ++ '"' :: r)
    (by rw [cq_no_match_nonword p hne hword '"' (by decide) _]; simp)]
  obtain ⟨p0, p', rfl⟩ := List.exists_cons_of_ne_nil hne
  have hp0 : wordChar p0 = true := hword p0 (List.mem_cons_self _ _)
  have hnm : (!false && matchColHere (lowerL (p0 :: p')) (p0 :: (p' ++ '"' :: r))) = false := by
    rw [show p0 :: (p' ++ '"' :: r) = (p0 :: p') ++ '"' :: r from (List.cons_append _ _ _).symm,
      cq_quoted_tail_no_match (p0 :: p') (by simp) r]
    simp
  rw [show wordChar '"' = false from by decide, List.cons_append,
    cq_step_nomatch (lowerL (p0 :: p')) (p0 :: p') false p0 (p' ++ '"' :: r) hnm,
    hp0, cq_wordrun (lowerL (p0 :: p')) (p0 :: p') p' ('"' :: r)
      (fun d hd => hword d (List.mem_cons_of_mem _ hd)),
    cq_step_nomatch (lowerL (p0 :: p')) (p0 :: p') true '"' r (by simp),
    show wordChar '"' = false from by decide]
  simp

theorem cq_prefCIEq_scan (w p v : List Char) (hv : ∀ a ∈ v, wordChar a = true) :
    ∀ t, prefCIEq v t = false → prefCIEq v (colQuoteA w p true 0 t) = false := by
  intro t
  induction t generalizing v with
  | nil =>
    intro h
    cases v with
    | nil => exact absurd h (by simp [prefCIEq])
    | cons a v => rfl
  | cons c t ih =>
    intro h
    cases v with
    | nil => exact absurd h (by simp [prefCIEq])
    | cons a v =>
      rw [cq_step_nomatch w p true c t (by simp)]
      by_cases hla : lowChar c = a
      · have hcw : wordChar c = true :=
          word_of_lowChar_eq c a hla (hv a (List.mem_cons_self _ _))
        simp only [prefCIEq, hla, decide_True, Bool.true_and] at h
        simp only [prefCIEq, hla, decide_True, Bool.true_and, hcw]
        exact ih v (fun x hx => hv x (List.mem_cons_of_mem _ hx)) h
      · simp [prefCIEq, hla]

theorem cq_drop_shape (p : List Char) (c : Char) (t X : List Char) (k : Nat)
    (hwk : (lowerL p).length = k + 1) (hkt : k ≤ t.length) :
    (c :: (t.take k ++ X)).drop (lowerL p).length = X := by
  rw [hwk, List.drop_succ_cons]
  have h5 := List.drop_left (t.take k) X
  rwa [List.length_take, Nat.min_eq_left hkt] at h5

theorem cq_preserve_nomatch (p : List Char) (hne : p ≠ [])
    (hword : ∀ c ∈ p, wordChar c = true) (c : Char) (t : List Char)
    (hmc : matchColHere (lowerL p) (c :: t) = false) :
    matchColHere (lowerL p) (c :: colQuoteA (lowerL p) p (wordChar c) 0 t) = false := by
  cases hp1 : prefCIEq (lowerL p) (c :: t) with
  | false =>
    obtain ⟨p0, p', rfl⟩ := List.exists_cons_of_ne_nil hne
    have e1 : lowerL (p0 :: p') = lowChar p0 :: lowerL p' := by simp [lowerL]
    by_cases hla : lowChar c = lowChar p0
    · have hcw : wordChar c = true :=
        word_of_lowChar_eq c (lowChar p0) hla
          (by rw [lowChar_wordChar]; exact hword p0 (List.mem_cons_self _ _))
      have hv' : prefCIEq (lowerL p') t = false := by
        rw [e1] at hp1
        simpa [prefCIEq, hla] using hp1
      have hpre2 : prefCIEq (lowChar p0 :: lowerL p')
          (c :: colQuoteA (lowChar p0 :: lowerL p') (p0 :: p') true 0 t) = false := by
        simp only [prefCIEq, hla, decide_True, Bool.true_and]
        exact cq_prefCIEq_scan (lowChar p0 :: lowerL p') (p0 :: p') (lowerL p')
          (lowerL_all_word p' (fun d hd => hword d (List.mem_cons_of_mem _ hd))) t hv'
      rw [hcw, e1]
      simp [matchColHere, hpre2]
    · rw [e1]
      simp [matchColHere, prefCIEq, hla]
  | true =>
    have hk1 : 1 ≤ (lowerL p).length := by
      rw [lowerL_length]
      cases p with
      | nil => exact absurd rfl hne
      | cons a q => simp
    have hwk : (lowerL p).length = ((lowerL p).length - 1) + 1 := by omega
    have hlen : (lowerL p).length ≤ t.length + 1 := by
      simpa using prefCIEq_length_le (lowerL p) (c :: t) hp1
    have hkt : (lowerL p).length - 1 ≤ t.length := by omega
    have hmword : ∀ x ∈ (c :: t).take (lowerL p).length, wordChar x = true :=
      prefCIEq_take_all_word (lowerL p) (lowerL_all_word p hword) (c :: t) hp1
    have htake : ∀ x ∈ t.take ((lowerL p).length - 1), wordChar x = true := by
      intro x hx
      apply hmword
      rw [hwk, List.take_succ_cons]
      exact List.mem_cons_of_mem _ hx
    have hc : wordChar c = true := by
      apply hmword
      rw [hwk, List.take_succ_cons]
      exact List.mem_cons_self _ _
    have hscan : colQuoteA (lowerL p) p true 0 t =
        t.take ((lowerL p).length - 1) ++
          colQuoteA (lowerL p) p true 0 (t.drop ((lowerL p).length - 1)) := by
      conv_lhs => rw [← List.take_append_drop ((lowerL p).length - 1) t]
      exact cq_wordrun (lowerL p) p _ _ htake
    have hdropc : (c :: t).drop (lowerL p).length = t.drop ((lowerL p).length - 1) := by
      conv_lhs => rw [hwk]
      rw [List.drop_succ_cons]
    cases hr1 : rightBd ((c :: t).drop (lowerL p).length) with
    | false =>
      rw [hdropc] at hr1
      cases hdk : t.drop ((lowerL p).length - 1) with
      | nil => rw [hdk] at hr1; simp [rightBd] at hr1
      | cons d t3 =>
        rw [hdk] at hr1
        have hdw : wordChar d = true := by simpa [rightBd] using hr1
        rw [hc, hscan, hdk,
          cq_step_nomatch (lowerL p) p true d t3 (by simp), hdw]
        have hdr := cq_drop_shape p c t (d :: colQuoteA (lowerL p) p true 0 t3)
          ((lowerL p).length - 1) hwk hkt
        simp [matchColHere, hdr, rightBd, hdw]
    | true =>
      have hq1 : quoteAfterWs ((c :: t).drop (lowerL p).length) = true := by
        cases hq : quoteAfterWs ((c :: t).drop (lowerL p).length) with
        | true => rfl
        | false => simp [matchColHere, hp1, hr1, hq] at hmc
      rw [hdropc] at hq1
      simp only [quoteAfterWs, decide_eq_true_eq] at hq1
      cases hdw2 : (t.drop ((lowerL p).length - 1)).dropWhile jsWsChar with
      | nil => rw [hdw2] at hq1; simp at hq1
      | cons e rest =>
        rw [hdw2] at hq1
        simp only [List.head?_cons, Option.some.injEq] at hq1
        subst hq1
        have hsplit : t.drop ((lowerL p).length - 1) =
            (t.drop ((lowerL p).length - 1)).takeWhile jsWsChar ++ '"' :: rest := by
          conv_lhs => rw [← List.takeWhile_append_dropWhile
            (p := jsWsChar) (l := t.drop ((lowerL p).length - 1))]
          rw [hdw2]
        have huws : ∀ x ∈ (t.drop ((lowerL p).length - 1)).takeWhile jsWsChar,
            jsWsChar x = true := mem_takeWhile_sat _ _
        have hqa : quoteAfterWs ((t.drop ((lowerL p).length - 1)).takeWhile jsWsChar ++
            '"' :: colQuoteA (lowerL p) p false 0 rest) = true := by
          simp [quoteAfterWs,
            dropWhile_append_stop jsWsChar _ _ '"' huws (by decide)]
        rw [hc, hscan, hsplit, cq_ws_quote p hne hword _ rest true huws]
        simp [matchColHere,
          cq_drop_shape p c t ((t.drop ((lowerL p).length - 1)).takeWhile jsWsChar ++
            '"' :: colQuoteA (lowerL p) p false 0 rest) ((lowerL p).length - 1) hwk hkt, hqa]

theorem cq_idem_aux (p : List Char) (hne : p ≠ [])
    (hword : ∀ c ∈ p, wordChar c = true) :
    ∀ (n : Nat) (s : List Char) (b : Bool), s.length ≤ n →
      colQuoteA (lowerL p) p b 0 (colQuoteA (lowerL p) p b 0 s) =
        colQuoteA (lowerL p) p b 0 s := by
  intro n
  induction n with
  | zero =>
    intro s b hs
    have hs0 : s = [] := List.length_eq_zero.mp (Nat.le_zero.mp hs)
    subst hs0
    cases b <;> rfl
  | succ n ih =>
    intro s b hs
    cases s with
    | nil => cases b <;> rfl
    | cons c t =>
      have ht : t.length ≤ n := by simpa using hs
      cases hm : (!b && matchColHere (lowerL p) (c :: t)) with
      | false =>
        rw [cq_step_nomatch (lowerL p) p b c t hm]
        have hm2 : (!b && matchColHere (lowerL p)
            (c :: colQuoteA (lowerL p) p (wordChar c) 0 t)) = false := by
          cases b with
          | true => simp
          | false =>
            have hmc : matchColHere (lowerL p) (c :: t) = false := by simpa using hm
            rw [cq_preserve_nomatch p hne hword c t hmc]
            simp
        rw [cq_step_nomatch (lowerL p) p b c _ hm2, ih t (wordChar c) ht]
      | true =>
        have hb : b = false := by
          cases b
          · rfl
          · simp at hm
        subst hb
        have hmc : matchColHere (lowerL p) (c :: t) = true := by simpa using hm
        have hcomp := hmc
        simp only [matchColHere, Bool.and_eq_true, Bool.not_eq_true'] at hcomp
        obtain ⟨⟨hp1, hr1raw⟩, hq1raw⟩ := hcomp
        have hk1 : 1 ≤ (lowerL p).length := by
          rw [lowerL_length]
          cases p with
          | nil => exact absurd rfl hne
          | cons a q => simp
        have hwk : (lowerL p).length = ((lowerL p).length - 1) + 1 := by omega
        have hlen : (lowerL p).length ≤ t.length + 1 := by
          simpa using prefCIEq_length_le (lowerL p) (c :: t) hp1
        have hkt : (lowerL p).length - 1 ≤ t.length := by omega
        have hmword : ∀ x ∈ (c :: t).take (lowerL p).length, wordChar x = true :=
          prefCIEq_take_all_word (lowerL p) (lowerL_all_word p hword) (c :: t) hp1
        have htake : ∀ x ∈ t.take ((lowerL p).length - 1), wordChar x = true := by
          intro x hx
          apply hmword
          rw [hwk, List.take_succ_cons]
          exact List.mem_cons_of_mem _ hx
        have hdropc : (c :: t).drop (lowerL p).length = t.drop ((lowerL p).length - 1) := by
          conv_lhs => rw [hwk]
          rw [List.drop_succ_cons]
        have hr1 : rightBd (t.drop ((lowerL p).length - 1)) = true := by
          rw [← hdropc]; exact hr1raw
        rw [cq_step_match (lowerL p) p false c t hm,
          cq_skip (lowerL p) p ((lowerL p).length - 1) t hkt htake]
        have hinner : colQuoteA (lowerL p) p false 0
            (colQuoteA (lowerL p) p true 0 (t.drop ((lowerL p).length - 1))) =
            colQuoteA (lowerL p) p true 0 (t.drop ((lowerL p).length - 1)) := by
          cases hdk : t.drop ((lowerL p).length - 1) with
          | nil => rfl
          | cons d t3 =>
            have hdw : wordChar d = false := by
              rw [hdk] at hr1
              simpa [rightBd] using hr1
            have ht3 : t3.length ≤ n := by
              have h6 : (t.drop ((lowerL p).length - 1)).length ≤ t.length := by
                rw [List.length_drop]
                omega
              rw [hdk] at h6
              simp at h6
              omega
            rw [cq_step_nomatch (lowerL p) p true d t3 (by simp), hdw,
              cq_step_nomatch (lowerL p) p false d (colQuoteA (lowerL p) p false 0 t3)
                (by rw [cq_no_match_nonword p hne hword d hdw _]; simp),
              hdw, ih t3 false ht3]
        rw [cq_scan_quoted p hne hword _ false, hinner]

/-- C8, amended: full identifier repair is not idempotent (see the
counterexample: the duplicate-FROM-removal step can fire again on its own
output), but the column-quoting step itself is idempotent: for every
non-empty word-shaped column name, applying the per-column replace
(word-boundary match with negative lookahead for a following quote) to its
own output returns the output unchanged, so already-quoted identifiers are
never double-quoted. -/
theorem c8_column_quoting_idempotent (p : List Char) (hne : p ≠ [])
    (hword : ∀ c ∈ p, wordChar c = true) (s : List Char) :
    colQuote (lowerL p) p (colQuote (lowerL p) p s) = colQuote (lowerL p) p s :=
  cq_idem_aux p hne hword s.length s false le_rfl

theorem c8_column_quoting_idempotent_witness :
    colQuote (lowerL "Price".data) "Price".data
        (colQuote (lowerL "Price".data) "Price".data
          "SELECT price, region FROM sales".data) =
      colQuote (lowerL "Price".data) "Price".data
        "SELECT price, region FROM sales".data :=
  c8_column_quoting_idempotent "Price".data (by decide) (by decide)
    "SELECT price, region FROM sales".data
